import Mathlib

/-!
Verification of the cache engines (`LRUCache`, `LFUCache`) of `src/ds/cache.py`.

Python values (which may be `None`) are modelled as `Option Int`; a stored
Python `None` is `none`.  Python `dict` objects are modelled as
insertion-ordered association lists (`List (key × value)`); updating an
existing key keeps its position, inserting a fresh key appends at the end,
and `del` removes the (unique) entry — exactly CPython's dict semantics.
Operations that can raise a Python exception return `Except String`.
-/

set_option maxHeartbeats 1000000

/-- `d.get(k)` / `k in d` lookup on an insertion-ordered dictionary. -/
def alistFind {α β : Type} [DecidableEq α] : List (α × β) → α → Option β
  | [], _ => none
  | (a, b) :: l, k => if a = k then some b else alistFind l k

/-- `d[k] = v` when `k` is already present: the entry keeps its position. -/
def alistSet {α β : Type} [DecidableEq α] : List (α × β) → α → β → List (α × β)
  | [], _, _ => []
  | (a, b) :: l, k, v => if a = k then (a, v) :: l else (a, b) :: alistSet l k v

/-- `del d[k]`: removes the first (in a Python dict: the unique) entry for `k`. -/
def alistErase {α β : Type} [DecidableEq α] : List (α × β) → α → List (α × β)
  | [], _ => []
  | (a, b) :: l, k => if a = k then l else (a, b) :: alistErase l k

section AlistLemmas

variable {α β : Type} [DecidableEq α]

theorem alistFind_eq_none {d : List (α × β)} {k : α} :
    alistFind d k = none ↔ k ∉ d.map Prod.fst := by
  induction d with
  | nil => simp [alistFind]
  | cons p l ih =>
    obtain ⟨a, b⟩ := p
    by_cases h : a = k
    · subst h
      simp [alistFind]
    · rw [show alistFind ((a, b) :: l) k = alistFind l k by simp [alistFind, h], ih]
      constructor
      · intro hk
        simp only [List.map_cons, List.mem_cons]
        rintro (rfl | hm)
        · exact h rfl
        · exact hk hm
      · intro hk hm
        exact hk (by simp [hm])

theorem alistFind_isSome {d : List (α × β)} {k : α} :
    (alistFind d k).isSome ↔ k ∈ d.map Prod.fst := by
  constructor
  · intro hs
    by_contra hmem
    rw [alistFind_eq_none.2 hmem] at hs
    simp at hs
  · intro hmem
    cases hf : alistFind d k
    · exact absurd hmem (alistFind_eq_none.1 hf)
    · rfl

theorem alistFind_mem {d : List (α × β)} {k : α} {v : β}
    (h : alistFind d k = some v) : (k, v) ∈ d := by
  induction d with
  | nil => simp [alistFind] at h
  | cons p l ih =>
    obtain ⟨a, b⟩ := p
    by_cases hak : a = k
    · subst hak
      simp [alistFind] at h
      simp [h]
    · simp [alistFind, hak] at h
      exact List.mem_cons_of_mem _ (ih h)

theorem alistFind_append_left {d e : List (α × β)} {k : α} {v : β}
    (h : alistFind d k = some v) : alistFind (d ++ e) k = some v := by
  induction d with
  | nil => simp [alistFind] at h
  | cons p l ih =>
    obtain ⟨a, b⟩ := p
    by_cases hak : a = k <;> simp_all [alistFind, hak]

theorem alistFind_append_right {d e : List (α × β)} {k : α}
    (h : alistFind d k = none) : alistFind (d ++ e) k = alistFind e k := by
  induction d with
  | nil => simp
  | cons p l ih =>
    obtain ⟨a, b⟩ := p
    by_cases hak : a = k <;> simp_all [alistFind, hak]

theorem map_fst_alistSet {d : List (α × β)} {k : α} {v : β} :
    (alistSet d k v).map Prod.fst = d.map Prod.fst := by
  induction d with
  | nil => rfl
  | cons p l ih =>
    obtain ⟨a, b⟩ := p
    by_cases hak : a = k <;> simp [alistSet, hak, ih]

theorem length_alistSet {d : List (α × β)} {k : α} {v : β} :
    (alistSet d k v).length = d.length := by
  have := congrArg List.length (map_fst_alistSet (d := d) (k := k) (v := v))
  simpa using this

theorem alistFind_alistSet_self {d : List (α × β)} {k : α} {v : β}
    (h : (alistFind d k).isSome) : alistFind (alistSet d k v) k = some v := by
  induction d with
  | nil => simp [alistFind] at h
  | cons p l ih =>
    obtain ⟨a, b⟩ := p
    by_cases hak : a = k <;> simp_all [alistFind, alistSet, hak]

theorem alistFind_alistSet_ne {d : List (α × β)} {k k' : α} {v : β}
    (h : k' ≠ k) : alistFind (alistSet d k v) k' = alistFind d k' := by
  induction d with
  | nil => rfl
  | cons p l ih =>
    obtain ⟨a, b⟩ := p
    by_cases hak : a = k
    · subst hak
      simp [alistSet, alistFind, Ne.symm h]
    · by_cases hak' : a = k' <;> simp [alistSet, alistFind, hak, hak', ih, h]

theorem map_fst_alistErase {d : List (α × β)} {k : α} :
    (alistErase d k).map Prod.fst = (d.map Prod.fst).erase k := by
  induction d with
  | nil => rfl
  | cons p l ih =>
    obtain ⟨a, b⟩ := p
    by_cases hak : a = k
    · subst hak
      simp [alistErase]
    · simp [alistErase, hak, ih, List.erase_cons_tail, Ne.symm hak]

theorem alistFind_alistErase_ne {d : List (α × β)} {k k' : α}
    (h : k' ≠ k) : alistFind (alistErase d k) k' = alistFind d k' := by
  induction d with
  | nil => rfl
  | cons p l ih =>
    obtain ⟨a, b⟩ := p
    by_cases hak : a = k
    · subst hak
      simp [alistErase, alistFind, Ne.symm h]
    · by_cases hak' : a = k' <;> simp [alistErase, alistFind, hak, hak', ih, h]

theorem alistFind_alistErase_self {d : List (α × β)} {k : α}
    (hnd : (d.map Prod.fst).Nodup) : alistFind (alistErase d k) k = none := by
  rw [alistFind_eq_none, map_fst_alistErase]
  intro hmem
  exact ((hnd.mem_erase_iff).1 hmem).1 rfl

theorem length_alistErase_of_mem {d : List (α × β)} {k : α}
    (h : k ∈ d.map Prod.fst) : (alistErase d k).length = d.length - 1 := by
  have h1 := congrArg List.length (map_fst_alistErase (d := d) (k := k))
  simpa [List.length_erase_of_mem h] using h1

end AlistLemmas

/-! ## The LRU cache engine (`LRUCache` in `src/ds/cache.py`)

The doubly linked usage list (`ListNode` chain between `self.head` and
`self.tail`) is represented by the list of the node values from `head` to
`tail`; the node pointer stored in `self.dict[key][1]` is recovered as the
(unique) position of `key` in that list, so `node_pointer == self.tail`
is `order.getLast? = some key`.  `self.dict` keeps only the value component. -/

structure LRUCache where
  capacity : Int
  dict : List (Int × Option Int)
  order : List Int
  deriving DecidableEq, Repr

namespace LRUCache

/-- `LRUCache.__init__`: stores the capacity and starts with an empty dict
and an empty usage list (`head = tail = None`).  Note: no validation of
`capacity` is performed. -/
def init (capacity : Int) : LRUCache :=
  { capacity := capacity, dict := [], order := [] }

/-- `LRUCache._update_usage`: if the key's node is already the tail, do
nothing; otherwise unlink the node (head case or middle case) and re-attach
it at the tail. -/
def updateUsage (c : LRUCache) (key : Int) : LRUCache :=
  if c.order.getLast? = some key then c
  else { c with order := c.order.erase key ++ [key] }

/-- `LRUCache.get`: `dict.get(key, (None, None))`; on a hit, update the
usage list and return the stored value; on a miss return `None`. -/
def get (c : LRUCache) (key : Int) : Option Int × LRUCache :=
  match alistFind c.dict key with
  | none => (none, c)
  | some v => (v, c.updateUsage key)

/-- `LRUCache.put`: update-in-place on an existing key; otherwise append a
new tail node and a new dict entry, then evict the head if
`len(dict) > capacity`.  When the list holds a single node, the eviction
code sets `head = head.next_ = None` and then dereferences
`self.head.prev_`, raising `AttributeError`. -/
def put (c : LRUCache) (key : Int) (value : Option Int) : Except String LRUCache :=
  match alistFind c.dict key with
  | some _ =>
    .ok (({ c with dict := alistSet c.dict key value } : LRUCache).updateUsage key)
  | none =>
    let order1 := c.order ++ [key]
    let dict1 := c.dict ++ [(key, value)]
    if (dict1.length : Int) > c.capacity then
      match order1 with
      | [] => .error "unreachable"
      | [_] => .error "AttributeError: NoneType object has no attribute prev_"
      | drop :: rest => .ok { capacity := c.capacity, dict := alistErase dict1 drop, order := rest }
    else
      .ok { capacity := c.capacity, dict := dict1, order := order1 }

/-- `LRUCache.__len__`. -/
def size (c : LRUCache) : Nat := c.dict.length

/-- States reachable from a freshly constructed cache by `get`/`put` calls
that complete without raising. -/
inductive Reach : LRUCache → Prop where
  | init (capacity : Int) : Reach (LRUCache.init capacity)
  | get (c : LRUCache) (k : Int) : Reach c → Reach (c.get k).2
  | put (c : LRUCache) (k : Int) (v : Option Int) (c' : LRUCache) :
      Reach c → c.put k v = .ok c' → Reach c'

/-- Representation invariant: the usage list holds exactly the dict's keys,
each once. -/
def WF (c : LRUCache) : Prop :=
  c.order.Perm (c.dict.map Prod.fst) ∧ c.order.Nodup

/-- Combined invariant: well-formed and within capacity (`max capacity 0`
so that the statement is also meaningful for the unvalidated
`capacity < 1` instances, which can never complete a `put`). -/
def Inv (c : LRUCache) : Prop :=
  WF c ∧ (c.dict.length : Int) ≤ max c.capacity 0

end LRUCache

instance {ε α : Type} [DecidableEq ε] [DecidableEq α] : DecidableEq (Except ε α) := fun x y =>
  match x, y with
  | .ok a, .ok b => if h : a = b then .isTrue (by simp [h]) else .isFalse (by simp [h])
  | .error a, .error b => if h : a = b then .isTrue (by simp [h]) else .isFalse (by simp [h])
  | .ok _, .error _ => .isFalse (by simp)
  | .error _, .ok _ => .isFalse (by simp)

example : (LRUCache.init 2).put 1 (some 10) =
    .ok { capacity := 2, dict := [(1, some 10)], order := [1] } := by decide

example : (LRUCache.init 0).put 1 (some 10) =
    .error "AttributeError: NoneType object has no attribute prev_" := by decide

namespace LRUCache

theorem updateUsage_dict (c : LRUCache) (k : Int) : (c.updateUsage k).dict = c.dict := by
  unfold updateUsage
  split <;> rfl

theorem updateUsage_capacity (c : LRUCache) (k : Int) :
    (c.updateUsage k).capacity = c.capacity := by
  unfold updateUsage
  split <;> rfl

theorem updateUsage_perm (c : LRUCache) (k : Int) (h : k ∈ c.order) :
    (c.updateUsage k).order.Perm c.order := by
  unfold updateUsage
  split
  · exact List.Perm.refl _
  · exact (List.perm_append_singleton _ _).trans (List.perm_cons_erase h).symm

theorem updateUsage_getLast (c : LRUCache) (k : Int) :
    (c.updateUsage k).order.getLast? = some k := by
  unfold updateUsage
  by_cases hl : c.order.getLast? = some k
  · rw [if_pos hl]
    exact hl
  · rw [if_neg hl]
    exact List.getLast?_concat _

theorem WF.mem_order_of_find {c : LRUCache} {k : Int} {v : Option Int}
    (hwf : WF c) (hf : alistFind c.dict k = some v) : k ∈ c.order :=
  hwf.1.mem_iff.2 (alistFind_isSome.1 (by simp [hf]))

theorem WF.updateUsage {c : LRUCache} {k : Int} (hwf : WF c) (h : k ∈ c.order) :
    WF (c.updateUsage k) := by
  refine ⟨?_, ?_⟩
  · rw [updateUsage_dict]
    exact (updateUsage_perm c k h).trans hwf.1
  · unfold LRUCache.updateUsage
    by_cases hl : c.order.getLast? = some k
    · rw [if_pos hl]
      exact hwf.2
    · rw [if_neg hl]
      refine ((List.perm_append_singleton _ _).nodup_iff).2 ?_
      exact List.Nodup.cons (fun hm => ((hwf.2.mem_erase_iff).1 hm).1 rfl) (hwf.2.erase k)

theorem get_snd_dict (c : LRUCache) (k : Int) : ((c.get k).2).dict = c.dict := by
  unfold get
  cases hf : alistFind c.dict k
  · rfl
  · exact updateUsage_dict _ _

theorem get_snd_capacity (c : LRUCache) (k : Int) :
    ((c.get k).2).capacity = c.capacity := by
  unfold get
  cases hf : alistFind c.dict k
  · rfl
  · exact updateUsage_capacity _ _

theorem inv_get_lru {c : LRUCache} (hInv : Inv c) (k : Int) : Inv (c.get k).2 := by
  unfold LRUCache.get
  cases hf : alistFind c.dict k
  · exact hInv
  · exact ⟨hInv.1.updateUsage (hInv.1.mem_order_of_find hf), by
      rw [updateUsage_dict, updateUsage_capacity]; exact hInv.2⟩

theorem put_existing_spec_lru {c : LRUCache} {k : Int} {w : Option Int} (v : Option Int)
    (hwf : WF c) (hf : alistFind c.dict k = some w) :
    ∃ c', c.put k v = .ok c' ∧ WF c' ∧ c'.capacity = c.capacity ∧
      c'.dict.length = c.dict.length ∧
      c'.dict.map Prod.fst = c.dict.map Prod.fst ∧
      alistFind c'.dict k = some v ∧
      (∀ k', k' ≠ k → alistFind c'.dict k' = alistFind c.dict k') ∧
      c'.order.Perm c.order := by
  have hmid : WF ({ c with dict := alistSet c.dict k v } : LRUCache) := by
    refine ⟨?_, hwf.2⟩
    simpa [map_fst_alistSet] using hwf.1
  have hmem : k ∈ ({ c with dict := alistSet c.dict k v } : LRUCache).order :=
    hwf.1.mem_iff.2 (alistFind_isSome.1 (by simp [hf]))
  refine ⟨_, by simp [put, hf], hmid.updateUsage hmem, ?_, ?_, ?_, ?_, ?_, ?_⟩
  · rw [updateUsage_capacity]
  · rw [updateUsage_dict]
    exact length_alistSet
  · rw [updateUsage_dict]
    exact map_fst_alistSet
  · rw [updateUsage_dict]
    exact alistFind_alistSet_self (by simp [hf])
  · intro k' hk'
    rw [updateUsage_dict]
    exact alistFind_alistSet_ne hk'
  · exact updateUsage_perm _ _ hmem

theorem put_fresh_noevict {c : LRUCache} {k : Int} (v : Option Int)
    (hf : alistFind c.dict k = none) (hcap : (c.dict.length + 1 : Int) ≤ c.capacity) :
    c.put k v = .ok { capacity := c.capacity, dict := c.dict ++ [(k, v)],
                      order := c.order ++ [k] } := by
  unfold put
  rw [hf]
  have hlen : ((c.dict ++ [(k, v)]).length : Int) = (c.dict.length + 1 : Int) := by
    simp
  simp only [hlen]
  rw [if_neg (by omega)]

theorem put_fresh_evict {c : LRUCache} {k : Int} (v : Option Int) {drop : Int} {os : List Int}
    (hf : alistFind c.dict k = none) (hcap : (c.dict.length + 1 : Int) > c.capacity)
    (horder : c.order = drop :: os) :
    c.put k v = .ok { capacity := c.capacity,
                      dict := alistErase (c.dict ++ [(k, v)]) drop,
                      order := os ++ [k] } := by
  unfold put
  rw [hf]
  have hlen : ((c.dict ++ [(k, v)]).length : Int) = (c.dict.length + 1 : Int) := by
    simp
  simp only [hlen]
  rw [if_pos (by omega)]
  rw [horder]
  rcases os with _ | ⟨o, os'⟩ <;> rfl

theorem put_fresh_crash {c : LRUCache} {k : Int} (v : Option Int)
    (hf : alistFind c.dict k = none) (hcap : (c.dict.length + 1 : Int) > c.capacity)
    (horder : c.order = []) :
    c.put k v = .error "AttributeError: NoneType object has no attribute prev_" := by
  unfold put
  rw [hf]
  have hlen : ((c.dict ++ [(k, v)]).length : Int) = (c.dict.length + 1 : Int) := by
    simp
  simp only [hlen]
  rw [if_pos (by omega), horder]
  rfl

end LRUCache

namespace LRUCache

theorem inv_init_lru (capacity : Int) : Inv (LRUCache.init capacity) := by
  refine ⟨⟨by simp [LRUCache.init], by simp [LRUCache.init]⟩, ?_⟩
  simp only [LRUCache.init, List.length_nil, Int.natCast_zero]
  exact le_max_right _ _

theorem inv_put_lru {c c' : LRUCache} {k : Int} {v : Option Int}
    (hInv : Inv c) (hok : c.put k v = .ok c') : Inv c' := by
  obtain ⟨hwf, hlen⟩ := hInv
  cases hf : alistFind c.dict k with
  | some w =>
    obtain ⟨c'', heq, hwf'', hcap'', hlen'', _, _, _, _⟩ := put_existing_spec_lru v hwf hf
    rw [heq] at hok
    cases hok
    exact ⟨hwf'', by rw [hcap'', hlen'']; exact hlen⟩
  | none =>
    have hknotin : k ∉ c.dict.map Prod.fst := alistFind_eq_none.1 hf
    have hkorder : k ∉ c.order := fun hm => hknotin (hwf.1.mem_iff.1 hm)
    by_cases hover : (c.dict.length + 1 : Int) > c.capacity
    · cases horder : c.order with
      | nil =>
        rw [put_fresh_crash v hf hover horder] at hok
        cases hok
      | cons drop os =>
        rw [put_fresh_evict v hf hover horder] at hok
        cases hok
        have hdropmem : drop ∈ c.dict.map Prod.fst :=
          hwf.1.mem_iff.1 (horder ▸ List.mem_cons_self drop os)
        have herase : (c.dict.map Prod.fst ++ [k]).erase drop
            = (c.dict.map Prod.fst).erase drop ++ [k] :=
          List.erase_append_left _ hdropmem
        have hperm1 : (c.dict.map Prod.fst).erase drop |>.Perm os := by
          have h1 : (c.dict.map Prod.fst).Perm (drop :: os) := horder ▸ hwf.1.symm
          have h2 := h1.erase drop
          simpa using h2
        have hosnodup : os.Nodup ∧ k ∉ os := by
          have := horder ▸ hwf.2
          have hkos : k ∉ os := fun hm => hkorder (horder ▸ List.mem_cons_of_mem _ hm)
          exact ⟨(List.nodup_cons.1 this).2, hkos⟩
        constructor
        constructor
        · show (os ++ [k]).Perm _
          rw [map_fst_alistErase]
          simp only [List.map_append]
          rw [show (List.map Prod.fst [(k, v)]) = [k] from rfl, herase]
          exact hperm1.symm.append (List.Perm.refl [k])
        · show (os ++ [k]).Nodup
          refine ((List.perm_append_singleton _ _).nodup_iff).2 ?_
          exact List.Nodup.cons hosnodup.2 hosnodup.1
        · show ((alistErase (c.dict ++ [(k, v)]) drop).length : Int) ≤ _
          have hmem1 : drop ∈ (c.dict ++ [(k, v)]).map Prod.fst := by
            simp only [List.map_append]
            exact List.mem_append_left _ hdropmem
          rw [length_alistErase_of_mem hmem1]
          simp only [List.length_append, List.length_cons, List.length_nil]
          have : (c.dict.length + 1 - 1) = c.dict.length := by omega
          rw [this]
          exact hlen
    · rw [put_fresh_noevict v hf (by omega)] at hok
      cases hok
      constructor
      constructor
      · show (c.order ++ [k]).Perm _
        simp only [List.map_append]
        exact hwf.1.append (List.Perm.refl _)
      · show (c.order ++ [k]).Nodup
        refine ((List.perm_append_singleton _ _).nodup_iff).2 ?_
        exact List.Nodup.cons hkorder hwf.2
      · show ((c.dict ++ [(k, v)]).length : Int) ≤ _
        have hub : c.capacity ≤ max c.capacity 0 := le_max_left _ _
        simp only [List.length_append, List.length_cons, List.length_nil]
        push_cast
        omega

theorem reach_inv_lru {c : LRUCache} (h : Reach c) : Inv c := by
  induction h with
  | init capacity => exact inv_init_lru capacity
  | get c k _ ih => exact inv_get_lru ih k
  | put c k v c' _ hok ih => exact inv_put_lru ih hok

end LRUCache

/-! ## The LFU cache engine (`LFUCache` in `src/ds/cache.py`)

`self.dict` maps a key to `[value, usage_count]`; `self.freq_dict` is a
`defaultdict(OrderedDict)` mapping a usage count to the insertion-ordered
set of keys with that count (values of the inner `OrderedDict` are always
`None`, so a bucket is just an ordered list of keys); `self.min_freq` is
`None` until a key is first inserted.  `OrderedDict` writes keep the
position of an existing key and append a fresh key at the end; `del`
removes an entry and raises `KeyError` when it is absent. -/

structure LFUCache where
  capacity : Int
  dict : List (Int × (Option Int × Nat))
  freq_dict : List (Nat × List Int)
  min_freq : Option Nat
  deriving DecidableEq, Repr

namespace LFUCache

/-- `LFUCache.__init__`: empty dict, empty frequency table, `min_freq = None`.
Note: no validation of `capacity` is performed. -/
def init (capacity : Int) : LFUCache :=
  { capacity := capacity, dict := [], freq_dict := [], min_freq := none }

/-- `self.freq_dict[u]` read as a bucket: the stored ordered key list, or the
empty one the `defaultdict` would create. -/
def bGet (freq : List (Nat × List Int)) (u : Nat) : List Int :=
  (alistFind freq u).getD []

/-- The bucket of usage count `u` in cache `c`. -/
def bucket (c : LFUCache) (u : Nat) : List Int :=
  bGet c.freq_dict u

/-- `self.freq_dict[u][k] = None`: keep the position of an existing key,
append a fresh key at the end (creating the bucket if needed). -/
def odInsert (freq : List (Nat × List Int)) (u : Nat) (k : Int) :
    List (Nat × List Int) :=
  match alistFind freq u with
  | none => freq ++ [(u, [k])]
  | some b => if k ∈ b then freq else alistSet freq u (b ++ [k])

/-- `del self.freq_dict[u][k]` for a key known to be in the bucket. -/
def odErase (freq : List (Nat × List Int)) (u : Nat) (k : Int) :
    List (Nat × List Int) :=
  alistSet freq u ((bGet freq u).erase k)

/-- `LFUCache._incriment_usage_count`: move `key` from bucket `f` to bucket
`f+1`, dropping bucket `f` if it empties and advancing `min_freq` when that
bucket was the minimum; finally record the new count in `dict`.
`self.dict[key]` and `del self.freq_dict[usage_count][key]` raise `KeyError`
when the entry is absent. -/
def incUsage (c : LFUCache) (key : Int) : Except String LFUCache :=
  match alistFind c.dict key with
  | none => .error "KeyError: key not in dict"
  | some (v, usage_count) =>
    let b := bGet c.freq_dict usage_count
    if key ∈ b then
      let b' := b.erase key
      let freq1 := if b' = [] then alistErase c.freq_dict usage_count
                   else alistSet c.freq_dict usage_count b'
      let min1 := if b' = [] ∧ c.min_freq = some usage_count
                  then some (usage_count + 1) else c.min_freq
      .ok { capacity := c.capacity,
            dict := alistSet c.dict key (v, usage_count + 1),
            freq_dict := odInsert freq1 (usage_count + 1) key,
            min_freq := min1 }
    else .error "KeyError: key not in its frequency bucket"

/-- `LFUCache.get`: a miss returns `None` with no state change; a hit
increments the usage count (any exception from the helper propagates) and
returns the stored value. -/
def get (c : LFUCache) (key : Int) : Except String (Option Int × LFUCache) :=
  match alistFind c.dict key with
  | none => .ok (none, c)
  | some (v, _) => (c.incUsage key).map (fun c' => (v, c'))

/-- `LFUCache.put`: update-in-place plus usage increment on an existing key;
otherwise insert the key with count 1 into `dict` and the count-1 bucket,
evict the front of the `min_freq` bucket if `len(dict) > capacity`, and set
`min_freq = 1`.  When over capacity with `min_freq = None` (a `capacity < 1`
instance) the loop over `freq_dict[None]` leaves the loop variable bound to
the inserted key, and `del freq_dict[None][key]` raises `KeyError`; the same
`del` raises when the `min_freq` bucket is empty, and `del self.dict[key]`
raises when the evicted key is not in `dict`. -/
def put (c : LFUCache) (key : Int) (value : Option Int) : Except String LFUCache :=
  match alistFind c.dict key with
  | some (_, usage_count) =>
    ({ c with dict := alistSet c.dict key (value, usage_count) } : LFUCache).incUsage key
  | none =>
    let dict1 := c.dict ++ [(key, (value, 1))]
    let freq1 := odInsert c.freq_dict 1 key
    if (dict1.length : Int) > c.capacity then
      match c.min_freq with
      | none => .error "KeyError: deleting from the empty freq_dict[None] bucket"
      | some mf =>
        match bGet freq1 mf with
        | [] => .error "KeyError: deleting from an empty min_freq bucket"
        | k0 :: _ =>
          let freq2 := odErase freq1 mf k0
          let freq3 := if bGet freq2 mf = [] then alistErase freq2 mf else freq2
          if (alistFind dict1 k0).isSome then
            .ok { capacity := c.capacity, dict := alistErase dict1 k0,
                  freq_dict := freq3, min_freq := some 1 }
          else .error "KeyError: evicted key not in dict"
    else
      .ok { capacity := c.capacity, dict := dict1, freq_dict := freq1,
            min_freq := some 1 }

/-- `LFUCache.__len__`. -/
def size (c : LFUCache) : Nat := c.dict.length

/-- States reachable from a freshly constructed cache by `get`/`put` calls
that complete without raising. -/
inductive Reach : LFUCache → Prop where
  | init (capacity : Int) : Reach (LFUCache.init capacity)
  | get (c : LFUCache) (k : Int) (r : Option Int × LFUCache) :
      Reach c → c.get k = .ok r → Reach r.2
  | put (c : LFUCache) (k : Int) (v : Option Int) (c' : LFUCache) :
      Reach c → c.put k v = .ok c' → Reach c'

end LFUCache

example : (LFUCache.init 2).put 1 (some 10) =
    .ok { capacity := 2, dict := [(1, (some 10, 1))], freq_dict := [(1, [1])],
          min_freq := some 1 } := by decide

example : (LFUCache.init 0).put 1 (some 10) =
    .error "KeyError: deleting from the empty freq_dict[None] bucket" := by decide

namespace LFUCache

theorem alistFind_append_singleton_ne {freq : List (Nat × List Int)} {u w : Nat}
    {b : List Int} (h : w ≠ u) :
    alistFind (freq ++ [(u, b)]) w = alistFind freq w := by
  cases hf : alistFind freq w with
  | some bb => exact alistFind_append_left hf
  | none =>
    rw [alistFind_append_right hf]
    simp [alistFind, hf, Ne.symm h]

theorem bGet_eq_nil_of_not_mem {freq : List (Nat × List Int)} {u : Nat}
    (h : u ∉ freq.map Prod.fst) : bGet freq u = [] := by
  unfold bGet
  rw [alistFind_eq_none.2 h]
  rfl

theorem mem_of_bGet_ne_nil {freq : List (Nat × List Int)} {u : Nat}
    (h : bGet freq u ≠ []) : u ∈ freq.map Prod.fst := by
  by_contra hmem
  exact h (bGet_eq_nil_of_not_mem hmem)

theorem bGet_alistSet_self {freq : List (Nat × List Int)} {u : Nat} {b : List Int}
    (h : u ∈ freq.map Prod.fst) : bGet (alistSet freq u b) u = b := by
  unfold bGet
  rw [alistFind_alistSet_self (alistFind_isSome.2 h)]
  rfl

theorem bGet_alistSet_ne {freq : List (Nat × List Int)} {u w : Nat} {b : List Int}
    (h : w ≠ u) : bGet (alistSet freq u b) w = bGet freq w := by
  unfold bGet
  rw [alistFind_alistSet_ne h]

theorem bGet_alistErase_self {freq : List (Nat × List Int)} {u : Nat}
    (hnd : (freq.map Prod.fst).Nodup) : bGet (alistErase freq u) u = [] := by
  unfold bGet
  rw [alistFind_alistErase_self hnd]
  rfl

theorem bGet_alistErase_ne {freq : List (Nat × List Int)} {u w : Nat}
    (h : w ≠ u) : bGet (alistErase freq u) w = bGet freq w := by
  unfold bGet
  rw [alistFind_alistErase_ne h]

theorem bGet_odInsert_self {freq : List (Nat × List Int)} {u : Nat} {k : Int}
    (h : k ∉ bGet freq u) : bGet (odInsert freq u k) u = bGet freq u ++ [k] := by
  cases hf : alistFind freq u with
  | none =>
    have hb : bGet freq u = [] := by unfold bGet; rw [hf]; rfl
    simp only [odInsert, hf, hb]
    unfold bGet
    rw [alistFind_append_right hf]
    simp [alistFind]
  | some b =>
    have hb : bGet freq u = b := by unfold bGet; rw [hf]; rfl
    simp only [odInsert, hf]
    rw [if_neg (hb ▸ h), hb]
    exact bGet_alistSet_self (alistFind_isSome.1 (by simp [hf]))

theorem bGet_odInsert_ne {freq : List (Nat × List Int)} {u w : Nat} {k : Int}
    (h : w ≠ u) : bGet (odInsert freq u k) w = bGet freq w := by
  cases hf : alistFind freq u with
  | none =>
    simp only [odInsert, hf]
    unfold bGet
    rw [alistFind_append_singleton_ne h]
  | some b =>
    simp only [odInsert, hf]
    by_cases hk : k ∈ b
    · rw [if_pos hk]
    · rw [if_neg hk]
      exact bGet_alistSet_ne h

theorem map_fst_odInsert_mem {freq : List (Nat × List Int)} {u : Nat} {k : Int}
    (h : u ∈ freq.map Prod.fst) :
    (odInsert freq u k).map Prod.fst = freq.map Prod.fst := by
  cases hf : alistFind freq u with
  | none => exact absurd h (alistFind_eq_none.1 hf)
  | some b =>
    simp only [odInsert, hf]
    by_cases hk : k ∈ b
    · rw [if_pos hk]
    · rw [if_neg hk]
      exact map_fst_alistSet

theorem map_fst_odInsert_not_mem {freq : List (Nat × List Int)} {u : Nat} {k : Int}
    (h : u ∉ freq.map Prod.fst) :
    (odInsert freq u k).map Prod.fst = freq.map Prod.fst ++ [u] := by
  simp only [odInsert, alistFind_eq_none.2 h]
  simp

/-- Representation invariant of the LFU engine: dict keys and usage-count
keys are unique, every bucket is duplicate-free, every stored usage count is
positive, each key lies in exactly the bucket of its stored count and every
bucket member is a stored key with that count, `min_freq` is `None` exactly
on an empty cache and otherwise is the smallest count with a non-empty
bucket. -/
structure WF (c : LFUCache) : Prop where
  dictNodup : (c.dict.map Prod.fst).Nodup
  freqNodup : (c.freq_dict.map Prod.fst).Nodup
  bucketsND : ∀ u, (c.bucket u).Nodup
  countsPos : ∀ k v u, alistFind c.dict k = some (v, u) → 1 ≤ u
  inBucket : ∀ k v u, alistFind c.dict k = some (v, u) → k ∈ c.bucket u
  bucketSound : ∀ u k, k ∈ c.bucket u → ∃ v, alistFind c.dict k = some (v, u)
  minNone : c.min_freq = none ↔ c.dict = []
  minSpec : ∀ m, c.min_freq = some m → c.bucket m ≠ [] ∧ ∀ u, c.bucket u ≠ [] → m ≤ u

theorem wf_init_lfu (capacity : Int) : WF (LFUCache.init capacity) := by
  refine ⟨by simp [LFUCache.init], by simp [LFUCache.init], ?_, ?_, ?_, ?_, ?_, ?_⟩ <;>
    simp [LFUCache.init, bucket, bGet, alistFind]

/-- A key never lies in two distinct buckets. -/
theorem WF.bucket_unique {c : LFUCache} (hwf : WF c) {k : Int} {u w : Nat}
    (hu : k ∈ c.bucket u) (hw : k ∈ c.bucket w) : u = w := by
  obtain ⟨v, hv⟩ := hwf.bucketSound u k hu
  obtain ⟨v', hv'⟩ := hwf.bucketSound w k hw
  rw [hv] at hv'
  cases hv'
  rfl

theorem WF.not_mem_bucket_of_find_none {c : LFUCache} (hwf : WF c) {k : Int} {u : Nat}
    (hf : alistFind c.dict k = none) : k ∉ c.bucket u := by
  intro hm
  obtain ⟨v, hv⟩ := hwf.bucketSound u k hm
  rw [hf] at hv
  cases hv

theorem WF.not_mem_bucket_ne {c : LFUCache} (hwf : WF c) {k : Int} {v : Option Int}
    {u w : Nat} (hf : alistFind c.dict k = some (v, u)) (hne : w ≠ u) :
    k ∉ c.bucket w := by
  intro hm
  exact hne (hwf.bucket_unique hm (hwf.inBucket k v u hf))

end LFUCache

namespace LFUCache

theorem find_some_dict_ne_nil {c : LFUCache} {k : Int} {p : Option Int × Nat}
    (hf : alistFind c.dict k = some p) : c.dict ≠ [] := by
  intro hnil
  rw [hnil] at hf
  cases hf

theorem min_isSome_of_find {c : LFUCache} (hwf : WF c) {k : Int} {p : Option Int × Nat}
    (hf : alistFind c.dict k = some p) : ∃ m, c.min_freq = some m := by
  cases hmf : c.min_freq with
  | none => exact absurd (hwf.minNone.1 hmf) (find_some_dict_ne_nil hf)
  | some m => exact ⟨m, rfl⟩

/-- Shared invariant-preservation core for `_incriment_usage_count`: if the
new state stores `u+1` for `k`, removes `k` from bucket `u`, appends it to
bucket `u+1`, keeps all other buckets, and updates `min_freq` as the code
does, it is well-formed. -/
theorem WF.move {c c' : LFUCache} (hwf : WF c) {k : Int} {v : Option Int} {u : Nat}
    (hfind : alistFind c.dict k = some (v, u))
    (hdict : c'.dict = alistSet c.dict k (v, u + 1))
    (hfreqnd : (c'.freq_dict.map Prod.fst).Nodup)
    (hbu : c'.bucket u = (c.bucket u).erase k)
    (hbu1 : c'.bucket (u + 1) = c.bucket (u + 1) ++ [k])
    (hbw : ∀ w, w ≠ u → w ≠ u + 1 → c'.bucket w = c.bucket w)
    (hmin : (c'.min_freq = some (u + 1) ∧ (c.bucket u).erase k = [] ∧ c.min_freq = some u)
          ∨ (c'.min_freq = c.min_freq ∧
             ¬((c.bucket u).erase k = [] ∧ c.min_freq = some u))) :
    WF c' := by
  have hsucc : u + 1 ≠ u := Nat.succ_ne_self u
  have hkb : k ∈ c.bucket u := hwf.inBucket k v u hfind
  have hbucketune : c.bucket u ≠ [] := List.ne_nil_of_mem hkb
  have hknotbu1 : k ∉ c.bucket (u + 1) := hwf.not_mem_bucket_ne hfind hsucc
  have hfind' : alistFind c'.dict k = some (v, u + 1) := by
    rw [hdict]
    exact alistFind_alistSet_self (by simp [hfind])
  have hother : ∀ k', k' ≠ k → alistFind c'.dict k' = alistFind c.dict k' := by
    intro k' hk'
    rw [hdict]
    exact alistFind_alistSet_ne hk'
  obtain ⟨m, hm⟩ := min_isSome_of_find hwf hfind
  have hmspec := hwf.minSpec m hm
  have hmu : m ≤ u := hmspec.2 u hbucketune
  refine ⟨?_, hfreqnd, ?_, ?_, ?_, ?_, ?_, ?_⟩
  · rw [hdict, map_fst_alistSet]
    exact hwf.dictNodup
  · intro w
    by_cases hwu : w = u
    · subst hwu
      rw [hbu]
      exact (hwf.bucketsND w).erase k
    · by_cases hwu1 : w = u + 1
      · subst hwu1
        rw [hbu1]
        refine ((List.perm_append_singleton _ _).nodup_iff).2 ?_
        exact List.Nodup.cons hknotbu1 (hwf.bucketsND _)
      · rw [hbw w hwu hwu1]
        exact hwf.bucketsND w
  · intro k'' v'' u'' hf''
    by_cases hk'' : k'' = k
    · subst hk''
      rw [hfind'] at hf''
      cases hf''
      omega
    · rw [hother k'' hk''] at hf''
      exact hwf.countsPos k'' v'' u'' hf''
  · intro k'' v'' u'' hf''
    by_cases hk'' : k'' = k
    · subst hk''
      rw [hfind'] at hf''
      cases hf''
      rw [hbu1]
      exact List.mem_append_right _ (by simp)
    · rw [hother k'' hk''] at hf''
      have hmem := hwf.inBucket k'' v'' u'' hf''
      by_cases hwu : u'' = u
      · subst hwu
        rw [hbu]
        exact (hwf.bucketsND u'').mem_erase_iff.2 ⟨hk'', hmem⟩
      · by_cases hwu1 : u'' = u + 1
        · subst hwu1
          rw [hbu1]
          exact List.mem_append_left _ hmem
        · rw [hbw u'' hwu hwu1]
          exact hmem
  · intro w k'' hmem
    by_cases hwu : w = u
    · subst hwu
      rw [hbu] at hmem
      have h1 := (hwf.bucketsND w).mem_erase_iff.1 hmem
      obtain ⟨v', hv'⟩ := hwf.bucketSound w k'' h1.2
      exact ⟨v', by rw [hother k'' h1.1, hv']⟩
    · by_cases hwu1 : w = u + 1
      · subst hwu1
        rw [hbu1] at hmem
        rcases List.mem_append.1 hmem with hmem1 | hmem1
        · obtain ⟨v', hv'⟩ := hwf.bucketSound _ k'' hmem1
          have hk'' : k'' ≠ k := fun h => hknotbu1 (h ▸ hmem1)
          exact ⟨v', by rw [hother k'' hk'', hv']⟩
        · rw [List.mem_singleton.1 hmem1]
          exact ⟨v, hfind'⟩
      · rw [hbw w hwu hwu1] at hmem
        have hk'' : k'' ≠ k := by
          intro h
          subst h
          exact hwu (hwf.bucket_unique hmem hkb)
        obtain ⟨v', hv'⟩ := hwf.bucketSound w k'' hmem
        exact ⟨v', by rw [hother k'' hk'', hv']⟩
  · constructor
    · intro hnone
      rcases hmin with ⟨h1, _⟩ | ⟨h1, _⟩
      · rw [h1] at hnone
        cases hnone
      · rw [h1, hm] at hnone
        cases hnone
    · intro hnil
      rw [hnil] at hfind'
      simp [alistFind] at hfind'
  · intro m' hm'
    rcases hmin with ⟨h1, hbe, hmineq⟩ | ⟨h1, hnot⟩
    · rw [h1] at hm'
      cases hm'
      have hmequ : m = u := by
        rw [hm] at hmineq
        cases hmineq
        rfl
      constructor
      · rw [hbu1]
        simp
      · intro w hw
        by_cases hwu1 : w = u + 1
        · omega
        · by_cases hwu : w = u
          · subst hwu
            rw [hbu, hbe] at hw
            exact absurd rfl hw
          · rw [hbw w hwu hwu1] at hw
            have := hmspec.2 w hw
            omega
    · rw [h1, hm] at hm'
      cases hm'
      constructor
      · by_cases hmequ : m = u
        · subst hmequ
          have hbne : (c.bucket m).erase k ≠ [] := by
            intro hbe
            exact hnot ⟨hbe, hm⟩
          rw [hbu]
          exact hbne
        · by_cases hmeq1 : m = u + 1
          · rw [hmeq1, hbu1]
            simp
          · rw [hbw m hmequ hmeq1]
            exact hmspec.1
      · intro w hw
        by_cases hwu : w = u
        · omega
        · by_cases hwu1 : w = u + 1
          · omega
          · rw [hbw w hwu hwu1] at hw
            exact hmspec.2 w hw

end LFUCache

namespace LFUCache

theorem incUsage_spec {c : LFUCache} {k : Int} {v : Option Int} {u : Nat}
    (hwf : WF c) (hfind : alistFind c.dict k = some (v, u)) :
    ∃ c', c.incUsage k = .ok c' ∧ WF c' ∧
      c'.capacity = c.capacity ∧
      alistFind c'.dict k = some (v, u + 1) ∧
      (∀ k', k' ≠ k → alistFind c'.dict k' = alistFind c.dict k') ∧
      c'.dict.map Prod.fst = c.dict.map Prod.fst ∧
      c'.dict.length = c.dict.length ∧
      (c.bucket u = [k] → c.min_freq = some u → c'.min_freq = some (u + 1)) := by
  have hkb : k ∈ c.bucket u := hwf.inBucket k v u hfind
  have hkbG : k ∈ bGet c.freq_dict u := hkb
  have hsucc : (u + 1 : Nat) ≠ u := Nat.succ_ne_self u
  have hknotbu1 : k ∉ c.bucket (u + 1) := hwf.not_mem_bucket_ne hfind hsucc
  have humem : u ∈ c.freq_dict.map Prod.fst :=
    mem_of_bGet_ne_nil (List.ne_nil_of_mem hkbG)
  set F1 := if (c.bucket u).erase k = [] then alistErase c.freq_dict u
            else alistSet c.freq_dict u ((c.bucket u).erase k) with hF1
  set M1 := if (c.bucket u).erase k = [] ∧ c.min_freq = some u then some (u + 1)
            else c.min_freq with hM1
  have hbF1u : bGet F1 u = (c.bucket u).erase k := by
    rw [hF1]
    by_cases hbe : (c.bucket u).erase k = []
    · rw [if_pos hbe, bGet_alistErase_self hwf.freqNodup, hbe]
    · rw [if_neg hbe, bGet_alistSet_self humem]
  have hbF1w : ∀ w, w ≠ u → bGet F1 w = c.bucket w := by
    intro w hw
    rw [hF1]
    by_cases hbe : (c.bucket u).erase k = []
    · rw [if_pos hbe, bGet_alistErase_ne hw]
      rfl
    · rw [if_neg hbe, bGet_alistSet_ne hw]
      rfl
  have hndF1 : (F1.map Prod.fst).Nodup := by
    rw [hF1]
    by_cases hbe : (c.bucket u).erase k = []
    · rw [if_pos hbe, map_fst_alistErase]
      exact hwf.freqNodup.erase u
    · rw [if_neg hbe, map_fst_alistSet]
      exact hwf.freqNodup
  have hknotF1u1 : k ∉ bGet F1 (u + 1) := by
    rw [hbF1w _ hsucc]
    exact hknotbu1
  have hnd2 : ((odInsert F1 (u + 1) k).map Prod.fst).Nodup := by
    by_cases hmem1 : (u + 1) ∈ F1.map Prod.fst
    · rw [map_fst_odInsert_mem hmem1]
      exact hndF1
    · rw [map_fst_odInsert_not_mem hmem1]
      refine ((List.perm_append_singleton _ _).nodup_iff).2 ?_
      exact List.Nodup.cons hmem1 hndF1
  have hb2u1 : bGet (odInsert F1 (u + 1) k) (u + 1) = c.bucket (u + 1) ++ [k] := by
    rw [bGet_odInsert_self hknotF1u1, hbF1w _ hsucc]
  have hb2u : bGet (odInsert F1 (u + 1) k) u = (c.bucket u).erase k := by
    rw [bGet_odInsert_ne (Ne.symm hsucc), hbF1u]
  have hb2w : ∀ w, w ≠ u → w ≠ u + 1 → bGet (odInsert F1 (u + 1) k) w = c.bucket w := by
    intro w hw hw1
    rw [bGet_odInsert_ne hw1, hbF1w w hw]
  have hminDich : (M1 = some (u + 1) ∧ (c.bucket u).erase k = [] ∧ c.min_freq = some u)
      ∨ (M1 = c.min_freq ∧ ¬((c.bucket u).erase k = [] ∧ c.min_freq = some u)) := by
    rw [hM1]
    by_cases hcond : (c.bucket u).erase k = [] ∧ c.min_freq = some u
    · exact Or.inl ⟨if_pos hcond, hcond⟩
    · exact Or.inr ⟨if_neg hcond, hcond⟩
  refine ⟨{ capacity := c.capacity, dict := alistSet c.dict k (v, u + 1),
            freq_dict := odInsert F1 (u + 1) k, min_freq := M1 }, ?_, ?_, rfl, ?_, ?_, ?_, ?_, ?_⟩
  · show c.incUsage k = _
    simp only [incUsage, hfind]
    rw [if_pos hkbG]
    rfl
  · exact hwf.move hfind rfl hnd2 hb2u hb2u1 hb2w hminDich
  · exact alistFind_alistSet_self (by simp [hfind])
  · intro k' hk'
    exact alistFind_alistSet_ne hk'
  · exact map_fst_alistSet
  · exact length_alistSet
  · intro hsingle hminu
    show M1 = some (u + 1)
    rw [hM1, if_pos ⟨by rw [hsingle]; simp, hminu⟩]

end LFUCache

theorem alistFind_append_one_ne {α β : Type} [DecidableEq α] {d : List (α × β)}
    {k k' : α} {v : β} (h : k' ≠ k) :
    alistFind (d ++ [(k, v)]) k' = alistFind d k' := by
  cases hf : alistFind d k' with
  | some b => exact alistFind_append_left hf
  | none =>
    rw [alistFind_append_right hf]
    simp [alistFind, hf, Ne.symm h]

theorem alistFind_append_one_self {α β : Type} [DecidableEq α] {d : List (α × β)}
    {k : α} {v : β} (h : alistFind d k = none) :
    alistFind (d ++ [(k, v)]) k = some v := by
  rw [alistFind_append_right h]
  simp [alistFind]

namespace LFUCache

theorem nodup_odInsert {freq : List (Nat × List Int)} {u : Nat} {k : Int}
    (h : (freq.map Prod.fst).Nodup) : ((odInsert freq u k).map Prod.fst).Nodup := by
  by_cases hmem : u ∈ freq.map Prod.fst
  · rw [map_fst_odInsert_mem hmem]
    exact h
  · rw [map_fst_odInsert_not_mem hmem]
    refine ((List.perm_append_singleton _ _).nodup_iff).2 ?_
    exact List.Nodup.cons hmem h

theorem put_existing_spec_lfu {c : LFUCache} {k : Int} {v0 : Option Int} {u : Nat}
    (v : Option Int) (hwf : WF c) (hfind : alistFind c.dict k = some (v0, u)) :
    ∃ c', c.put k v = .ok c' ∧ WF c' ∧ c'.capacity = c.capacity ∧
      alistFind c'.dict k = some (v, u + 1) ∧
      (∀ k', k' ≠ k → alistFind c'.dict k' = alistFind c.dict k') ∧
      c'.dict.map Prod.fst = c.dict.map Prod.fst ∧
      c'.dict.length = c.dict.length := by
  have hwf1 : WF ({ c with dict := alistSet c.dict k (v, u) } : LFUCache) := by
    refine ⟨?_, hwf.freqNodup, hwf.bucketsND, ?_, ?_, ?_, ?_, hwf.minSpec⟩
    · rw [map_fst_alistSet]
      exact hwf.dictNodup
    · intro k'' v'' u'' hf''
      by_cases hk'' : k'' = k
      · subst hk''
        rw [alistFind_alistSet_self (by simp [hfind])] at hf''
        cases hf''
        exact hwf.countsPos k'' v0 u hfind
      · rw [alistFind_alistSet_ne hk''] at hf''
        exact hwf.countsPos k'' v'' u'' hf''
    · intro k'' v'' u'' hf''
      by_cases hk'' : k'' = k
      · subst hk''
        rw [alistFind_alistSet_self (by simp [hfind])] at hf''
        cases hf''
        exact hwf.inBucket k'' v0 u hfind
      · rw [alistFind_alistSet_ne hk''] at hf''
        exact hwf.inBucket k'' v'' u'' hf''
    · intro w k'' hmem
      obtain ⟨v', hv'⟩ := hwf.bucketSound w k'' hmem
      by_cases hk'' : k'' = k
      · subst hk''
        rw [hfind] at hv'
        cases hv'
        exact ⟨v, alistFind_alistSet_self (by simp [hfind])⟩
      · exact ⟨v', by rw [alistFind_alistSet_ne hk'']; exact hv'⟩
    · show c.min_freq = none ↔ alistSet c.dict k (v, u) = []
      rw [hwf.minNone]
      constructor
      · intro h
        rw [h]
        rfl
      · intro h
        have := congrArg List.length h
        rw [length_alistSet] at this
        exact List.eq_nil_of_length_eq_zero this
  have hfind1 : alistFind ({ c with dict := alistSet c.dict k (v, u) } : LFUCache).dict k
      = some (v, u) := alistFind_alistSet_self (by simp [hfind])
  obtain ⟨c', hok, hwf', hcap, hfindk, hother, hkeys, hlen, _⟩ := incUsage_spec hwf1 hfind1
  refine ⟨c', ?_, hwf', hcap, hfindk, ?_, ?_, ?_⟩
  · simp only [put, hfind]
    exact hok
  · intro k' hk'
    rw [hother k' hk']
    exact alistFind_alistSet_ne hk'
  · rw [hkeys]
    exact map_fst_alistSet
  · rw [hlen]
    exact length_alistSet

theorem put_fresh_noevict_spec {c : LFUCache} {k : Int} (v : Option Int)
    (hwf : WF c) (hfind : alistFind c.dict k = none)
    (hcap : (c.dict.length + 1 : Int) ≤ c.capacity) :
    ∃ c', c.put k v = .ok c' ∧ WF c' ∧ c'.capacity = c.capacity ∧
      c'.dict = c.dict ++ [(k, (v, 1))] ∧ c'.min_freq = some 1 ∧
      k ∈ c'.bucket 1 ∧ alistFind c'.dict k = some (v, 1) ∧
      (∀ k', k' ≠ k → alistFind c'.dict k' = alistFind c.dict k') ∧
      c'.dict.length = c.dict.length + 1 := by
  have hknotb : ∀ w, k ∉ c.bucket w := fun w => hwf.not_mem_bucket_of_find_none hfind
  have hknotkeys : k ∉ c.dict.map Prod.fst := alistFind_eq_none.1 hfind
  have hb1 : bGet (odInsert c.freq_dict 1 k) 1 = c.bucket 1 ++ [k] :=
    bGet_odInsert_self (hknotb 1)
  have hbw : ∀ w, w ≠ 1 → bGet (odInsert c.freq_dict 1 k) w = c.bucket w :=
    fun w hw => bGet_odInsert_ne hw
  have hfk : alistFind (c.dict ++ [(k, (v, 1))]) k = some (v, 1) :=
    alistFind_append_one_self hfind
  have hfo : ∀ k', k' ≠ k → alistFind (c.dict ++ [(k, (v, 1))]) k' = alistFind c.dict k' :=
    fun k' hk' => alistFind_append_one_ne hk'
  refine ⟨{ capacity := c.capacity, dict := c.dict ++ [(k, (v, 1))],
            freq_dict := odInsert c.freq_dict 1 k, min_freq := some 1 },
          ?_, ?_, rfl, rfl, rfl, ?_, hfk, hfo, by simp⟩
  · simp only [put, hfind]
    rw [if_neg (by
      simp only [List.length_append, List.length_cons, List.length_nil]
      push_cast
      omega)]
  · refine ⟨?_, nodup_odInsert hwf.freqNodup, ?_, ?_, ?_, ?_, ?_, ?_⟩
    · rw [List.map_append]
      refine ((List.perm_append_singleton _ _).nodup_iff).2 ?_
      exact List.Nodup.cons hknotkeys hwf.dictNodup
    · intro w
      show (bGet (odInsert c.freq_dict 1 k) w).Nodup
      by_cases hw : w = 1
      · subst hw
        rw [hb1]
        refine ((List.perm_append_singleton _ _).nodup_iff).2 ?_
        exact List.Nodup.cons (hknotb 1) (hwf.bucketsND 1)
      · rw [hbw w hw]
        exact hwf.bucketsND w
    · intro k'' v'' u'' hf''
      by_cases hk'' : k'' = k
      · subst hk''
        rw [hfk] at hf''
        cases hf''
        omega
      · rw [hfo k'' hk''] at hf''
        exact hwf.countsPos k'' v'' u'' hf''
    · intro k'' v'' u'' hf''
      show k'' ∈ bGet (odInsert c.freq_dict 1 k) u''
      by_cases hk'' : k'' = k
      · subst hk''
        rw [hfk] at hf''
        cases hf''
        rw [hb1]
        exact List.mem_append_right _ (by simp)
      · rw [hfo k'' hk''] at hf''
        have hmem := hwf.inBucket k'' v'' u'' hf''
        by_cases hu'' : u'' = 1
        · subst hu''
          rw [hb1]
          exact List.mem_append_left _ hmem
        · rw [hbw u'' hu'']
          exact hmem
    · intro w k'' hmem
      change k'' ∈ bGet (odInsert c.freq_dict 1 k) w at hmem
      by_cases hw : w = 1
      · subst hw
        rw [hb1] at hmem
        rcases List.mem_append.1 hmem with hmem1 | hmem1
        · obtain ⟨v', hv'⟩ := hwf.bucketSound 1 k'' hmem1
          have hk'' : k'' ≠ k := fun h => hknotb 1 (h ▸ hmem1)
          exact ⟨v', by rw [hfo k'' hk'']; exact hv'⟩
        · rw [List.mem_singleton.1 hmem1]
          exact ⟨v, hfk⟩
      · rw [hbw w hw] at hmem
        obtain ⟨v', hv'⟩ := hwf.bucketSound w k'' hmem
        have hk'' : k'' ≠ k := fun h => hknotb w (h ▸ hmem)
        exact ⟨v', by rw [hfo k'' hk'']; exact hv'⟩
    · constructor
      · intro h
        cases h
      · intro h
        have := congrArg List.length h
        simp at this
    · intro m hm
      cases hm
      constructor
      · show bGet (odInsert c.freq_dict 1 k) 1 ≠ []
        rw [hb1]
        simp
      · intro w hw
        change bGet (odInsert c.freq_dict 1 k) w ≠ [] at hw
        by_cases hw1 : w = 1
        · omega
        · rw [hbw w hw1] at hw
          obtain ⟨k'', hk''⟩ := List.exists_mem_of_ne_nil _ hw
          obtain ⟨v', hv'⟩ := hwf.bucketSound w k'' hk''
          exact hwf.countsPos k'' v' w hv'
  · show k ∈ bGet (odInsert c.freq_dict 1 k) 1
    rw [hb1]
    exact List.mem_append_right _ (by simp)

end LFUCache

namespace LFUCache

theorem put_fresh_evict_spec {c : LFUCache} {k : Int} (v : Option Int)
    (hwf : WF c) (hfind : alistFind c.dict k = none)
    (hover : (c.dict.length + 1 : Int) > c.capacity) (hne : c.dict ≠ []) :
    ∃ mf k0 rest c', c.min_freq = some mf ∧ c.bucket mf = k0 :: rest ∧
      c.put k v = .ok c' ∧ WF c' ∧ c'.capacity = c.capacity ∧
      c'.min_freq = some 1 ∧
      c'.dict = alistErase (c.dict ++ [(k, (v, 1))]) k0 ∧
      alistFind c'.dict k = some (v, 1) ∧
      alistFind c'.dict k0 = none ∧
      (∀ k', k' ≠ k → k' ≠ k0 → alistFind c'.dict k' = alistFind c.dict k') ∧
      k ∈ c'.bucket 1 ∧
      c'.dict.length = c.dict.length := by
  cases hmf : c.min_freq with
  | none => exact absurd (hwf.minNone.1 hmf) hne
  | some mf =>
  cases hb : c.bucket mf with
  | nil => exact absurd hb (hwf.minSpec mf hmf).1
  | cons k0 rest =>
  have hk0mem : k0 ∈ c.bucket mf := hb ▸ List.mem_cons_self k0 rest
  obtain ⟨v0, hk0find⟩ := hwf.bucketSound mf k0 hk0mem
  have hk0ne : k0 ≠ k := fun h => by rw [h, hfind] at hk0find; cases hk0find
  have hmfpos : 1 ≤ mf := hwf.countsPos k0 v0 mf hk0find
  have hknotb : ∀ w, k ∉ c.bucket w := fun w => hwf.not_mem_bucket_of_find_none hfind
  have hknotkeys : k ∉ c.dict.map Prod.fst := alistFind_eq_none.1 hfind
  have hdnd1 : ((c.dict ++ [(k, (v, 1))]).map Prod.fst).Nodup := by
    rw [List.map_append]
    refine ((List.perm_append_singleton _ _).nodup_iff).2 ?_
    exact List.Nodup.cons hknotkeys hwf.dictNodup
  have hfk1 : alistFind (c.dict ++ [(k, (v, 1))]) k = some (v, 1) :=
    alistFind_append_one_self hfind
  have hfk01 : alistFind (c.dict ++ [(k, (v, 1))]) k0 = some (v0, mf) :=
    alistFind_append_left hk0find
  have hb1 : bGet (odInsert c.freq_dict 1 k) 1 = c.bucket 1 ++ [k] :=
    bGet_odInsert_self (hknotb 1)
  have hbw1 : ∀ w, w ≠ 1 → bGet (odInsert c.freq_dict 1 k) w = c.bucket w :=
    fun w hw => bGet_odInsert_ne hw
  obtain ⟨R, haR, hbR, hcR⟩ : ∃ R, bGet (odInsert c.freq_dict 1 k) mf = k0 :: R ∧
      (∀ x, x ∈ R ↔ x ∈ rest ∨ (mf = 1 ∧ x = k)) ∧ R.Nodup := by
    by_cases hmf1 : mf = 1
    · subst hmf1
      refine ⟨rest ++ [k], ?_, ?_, ?_⟩
      · rw [hb1, hb]
        rfl
      · intro x
        simp
      · have hnd := hwf.bucketsND 1
        rw [hb] at hnd
        have hkr : k ∉ rest := fun hm => hknotb 1 (hb ▸ List.mem_cons_of_mem _ hm)
        refine ((List.perm_append_singleton _ _).nodup_iff).2 ?_
        exact List.Nodup.cons hkr (List.nodup_cons.1 hnd).2
    · refine ⟨rest, ?_, ?_, ?_⟩
      · rw [hbw1 mf hmf1, hb]
      · intro x
        simp [hmf1]
      · have hnd := hwf.bucketsND mf
        rw [hb] at hnd
        exact (List.nodup_cons.1 hnd).2
  have hk0notR : k0 ∉ R := by
    intro hm
    rcases (hbR k0).1 hm with hrest | ⟨_, h⟩
    · have hnd := hwf.bucketsND mf
      rw [hb] at hnd
      exact (List.nodup_cons.1 hnd).1 hrest
    · exact hk0ne h
  have hmfmem1 : mf ∈ (odInsert c.freq_dict 1 k).map Prod.fst :=
    mem_of_bGet_ne_nil (by rw [haR]; simp)
  have hnd1f : ((odInsert c.freq_dict 1 k).map Prod.fst).Nodup :=
    nodup_odInsert hwf.freqNodup
  have hfreq2 : odErase (odInsert c.freq_dict 1 k) mf k0
      = alistSet (odInsert c.freq_dict 1 k) mf R := by
    unfold odErase
    rw [haR, List.erase_cons_head]
  have hb2mf : bGet (odErase (odInsert c.freq_dict 1 k) mf k0) mf = R := by
    rw [hfreq2]
    exact bGet_alistSet_self hmfmem1
  have hb2w : ∀ w, w ≠ mf → bGet (odErase (odInsert c.freq_dict 1 k) mf k0) w
      = bGet (odInsert c.freq_dict 1 k) w := by
    intro w hw
    rw [hfreq2]
    exact bGet_alistSet_ne hw
  have hnd2f : ((odErase (odInsert c.freq_dict 1 k) mf k0).map Prod.fst).Nodup := by
    rw [hfreq2, map_fst_alistSet]
    exact hnd1f
  set F3 := if bGet (odErase (odInsert c.freq_dict 1 k) mf k0) mf = []
            then alistErase (odErase (odInsert c.freq_dict 1 k) mf k0) mf
            else odErase (odInsert c.freq_dict 1 k) mf k0 with hF3
  have hb3mf : bGet F3 mf = R := by
    rw [hF3]
    by_cases hR : bGet (odErase (odInsert c.freq_dict 1 k) mf k0) mf = []
    · rw [if_pos hR, bGet_alistErase_self hnd2f]
      rw [hb2mf] at hR
      exact hR.symm
    · rw [if_neg hR]
      exact hb2mf
  have hb3w : ∀ w, w ≠ mf → bGet F3 w = bGet (odInsert c.freq_dict 1 k) w := by
    intro w hw
    rw [hF3]
    by_cases hR : bGet (odErase (odInsert c.freq_dict 1 k) mf k0) mf = []
    · rw [if_pos hR, bGet_alistErase_ne hw]
      exact hb2w w hw
    · rw [if_neg hR]
      exact hb2w w hw
  have hnd3f : (F3.map Prod.fst).Nodup := by
    rw [hF3]
    by_cases hR : bGet (odErase (odInsert c.freq_dict 1 k) mf k0) mf = []
    · rw [if_pos hR, map_fst_alistErase]
      exact hnd2f.erase mf
    · rw [if_neg hR]
      exact hnd2f
  have hkB1 : k ∈ bGet F3 1 := by
    by_cases hmf1 : mf = 1
    · rw [← hmf1, hb3mf]
      exact (hbR k).2 (Or.inr ⟨hmf1, rfl⟩)
    · rw [hb3w 1 (fun heq => hmf1 heq.symm), hb1]
      exact List.mem_append_right _ (by simp)
  have hf2k : alistFind (alistErase (c.dict ++ [(k, (v, 1))]) k0) k = some (v, 1) := by
    rw [alistFind_alistErase_ne (Ne.symm hk0ne)]
    exact hfk1
  have hf2k0 : alistFind (alistErase (c.dict ++ [(k, (v, 1))]) k0) k0 = none :=
    alistFind_alistErase_self hdnd1
  have hf2o : ∀ k', k' ≠ k → k' ≠ k0 →
      alistFind (alistErase (c.dict ++ [(k, (v, 1))]) k0) k' = alistFind c.dict k' := by
    intro k' hk hk0
    rw [alistFind_alistErase_ne hk0]
    exact alistFind_append_one_ne hk
  have hsome1 : (alistFind (c.dict ++ [(k, (v, 1))]) k0).isSome := by
    simp [hfk01]
  have hstep : c.put k v =
      .ok ⟨c.capacity, alistErase (c.dict ++ [(k, (v, 1))]) k0, F3, some 1⟩ := by
    simp only [put, hfind]
    rw [if_pos (by
      simp only [List.length_append, List.length_cons, List.length_nil]
      push_cast
      omega)]
    simp only [hmf, haR]
    rw [if_pos hsome1]
  refine ⟨mf, k0, rest, _, rfl, hb, hstep, ?_, rfl, rfl, rfl, hf2k, hf2k0, hf2o, hkB1, ?_⟩
  · refine ⟨?_, hnd3f, ?_, ?_, ?_, ?_, ?_, ?_⟩
    · show ((alistErase (c.dict ++ [(k, (v, 1))]) k0).map Prod.fst).Nodup
      rw [map_fst_alistErase]
      exact hdnd1.erase k0
    · intro w
      show (bGet F3 w).Nodup
      by_cases hwmf : w = mf
      · rw [hwmf, hb3mf]
        exact hcR
      · rw [hb3w w hwmf]
        by_cases hw1 : w = 1
        · rw [hw1, hb1]
          refine ((List.perm_append_singleton _ _).nodup_iff).2 ?_
          exact List.Nodup.cons (hknotb 1) (hwf.bucketsND 1)
        · rw [hbw1 w hw1]
          exact hwf.bucketsND w
    · intro k'' v'' u'' hf''
      by_cases hk'' : k'' = k
      · subst hk''
        rw [hf2k] at hf''
        cases hf''
        omega
      · by_cases hk0'' : k'' = k0
        · subst hk0''
          rw [hf2k0] at hf''
          cases hf''
        · rw [hf2o k'' hk'' hk0''] at hf''
          exact hwf.countsPos k'' v'' u'' hf''
    · intro k'' v'' u'' hf''
      show k'' ∈ bGet F3 u''
      by_cases hk'' : k'' = k
      · subst hk''
        rw [hf2k] at hf''
        cases hf''
        exact hkB1
      · by_cases hk0'' : k'' = k0
        · subst hk0''
          rw [hf2k0] at hf''
          cases hf''
        · rw [hf2o k'' hk'' hk0''] at hf''
          have hmemb := hwf.inBucket k'' v'' u'' hf''
          by_cases humf : u'' = mf
          · subst humf
            rw [hb3mf]
            have hrest : k'' ∈ rest := by
              rw [hb] at hmemb
              rcases List.mem_cons.1 hmemb with h | h
              · exact absurd h hk0''
              · exact h
            exact (hbR k'').2 (Or.inl hrest)
          · rw [hb3w u'' humf]
            by_cases hu1 : u'' = 1
            · rw [hu1, hb1]
              rw [hu1] at hmemb
              exact List.mem_append_left _ hmemb
            · rw [hbw1 u'' hu1]
              exact hmemb
    · intro w k'' hmem
      change k'' ∈ bGet F3 w at hmem
      by_cases hwmf : w = mf
      · subst hwmf
        rw [hb3mf] at hmem
        rcases (hbR k'').1 hmem with hrest | ⟨hmf1, rfl⟩
        · have hmemb : k'' ∈ c.bucket w := hb ▸ List.mem_cons_of_mem _ hrest
          obtain ⟨v', hv'⟩ := hwf.bucketSound w k'' hmemb
          have hnek : k'' ≠ k := fun h => hknotb w (h ▸ hmemb)
          have hnek0 : k'' ≠ k0 := by
            have hnd := hwf.bucketsND w
            rw [hb] at hnd
            exact fun h => (List.nodup_cons.1 hnd).1 (h ▸ hrest)
          exact ⟨v', by rw [hf2o k'' hnek hnek0]; exact hv'⟩
        · rw [hmf1]
          exact ⟨v, hf2k⟩
      · rw [hb3w w hwmf] at hmem
        by_cases hw1 : w = 1
        · subst hw1
          rw [hb1] at hmem
          rcases List.mem_append.1 hmem with hm1 | hm1
          · obtain ⟨v', hv'⟩ := hwf.bucketSound 1 k'' hm1
            have hnek : k'' ≠ k := fun h => hknotb 1 (h ▸ hm1)
            have hnek0 : k'' ≠ k0 :=
              fun h => hwmf (hwf.bucket_unique (h ▸ hm1) hk0mem)
            exact ⟨v', by rw [hf2o k'' hnek hnek0]; exact hv'⟩
          · rw [List.mem_singleton.1 hm1]
            exact ⟨v, hf2k⟩
        · rw [hbw1 w hw1] at hmem
          obtain ⟨v', hv'⟩ := hwf.bucketSound w k'' hmem
          have hnek : k'' ≠ k := fun h => hknotb w (h ▸ hmem)
          have hnek0 : k'' ≠ k0 :=
            fun h => hwmf (hwf.bucket_unique (h ▸ hmem) hk0mem)
          exact ⟨v', by rw [hf2o k'' hnek hnek0]; exact hv'⟩
    · constructor
      · intro h
        cases h
      · intro hnil
        have hnil' : alistErase (c.dict ++ [(k, (v, 1))]) k0 = [] := hnil
        rw [hnil'] at hf2k
        simp [alistFind] at hf2k
    · intro m hm
      cases hm
      constructor
      · exact List.ne_nil_of_mem hkB1
      · intro w hw
        change bGet F3 w ≠ [] at hw
        by_contra h1
        have hw0 : w = 0 := by omega
        subst hw0
        have h0mf : (0 : Nat) ≠ mf := by omega
        rw [hb3w 0 h0mf, hbw1 0 (by decide)] at hw
        obtain ⟨k'', hk''⟩ := List.exists_mem_of_ne_nil _ hw
        obtain ⟨v', hv'⟩ := hwf.bucketSound 0 k'' hk''
        have := hwf.countsPos k'' v' 0 hv'
        omega
  · show (alistErase (c.dict ++ [(k, (v, 1))]) k0).length = c.dict.length
    have hk0keys : k0 ∈ (c.dict ++ [(k, (v, 1))]).map Prod.fst := by
      rw [List.map_append]
      exact List.mem_append_left _ (alistFind_isSome.1 (by simp [hk0find]))
    rw [length_alistErase_of_mem hk0keys]
    simp

end LFUCache

namespace LFUCache

/-- Combined invariant: well-formed and within capacity. -/
def Inv (c : LFUCache) : Prop :=
  WF c ∧ (c.dict.length : Int) ≤ max c.capacity 0

theorem inv_init_lfu (capacity : Int) : Inv (LFUCache.init capacity) := by
  refine ⟨wf_init_lfu capacity, ?_⟩
  simp only [LFUCache.init, List.length_nil, Int.natCast_zero]
  exact le_max_right _ _

theorem put_error_of_empty_over {c : LFUCache} {k : Int} (v : Option Int)
    (hwf : WF c) (hfind : alistFind c.dict k = none)
    (hover : (c.dict.length + 1 : Int) > c.capacity) (hnil : c.dict = []) :
    c.put k v = .error "KeyError: deleting from the empty freq_dict[None] bucket" := by
  have hmfnone := hwf.minNone.2 hnil
  simp only [put, hfind]
  rw [if_pos (by
    simp only [List.length_append, List.length_cons, List.length_nil]
    push_cast
    omega)]
  rw [hmfnone]

theorem inv_get_lfu {c : LFUCache} (hInv : Inv c) {k : Int} {r : Option Int × LFUCache}
    (hok : c.get k = .ok r) : Inv r.2 := by
  cases hfind : alistFind c.dict k with
  | none =>
    simp only [LFUCache.get, hfind] at hok
    cases hok
    exact hInv
  | some p =>
    obtain ⟨v, u⟩ := p
    obtain ⟨c', hok', hwf', hcap, _, _, _, hlen, _⟩ := incUsage_spec hInv.1 hfind
    simp only [LFUCache.get, hfind, hok'] at hok
    cases hok
    refine ⟨hwf', ?_⟩
    show ((c'.dict.length : Int)) ≤ max c'.capacity 0
    rw [hcap, hlen]
    exact hInv.2

theorem inv_put_lfu {c c' : LFUCache} {k : Int} {v : Option Int}
    (hInv : Inv c) (hok : c.put k v = .ok c') : Inv c' := by
  cases hfind : alistFind c.dict k with
  | some p =>
    obtain ⟨v0, u⟩ := p
    obtain ⟨c'', hok', hwf', hcap, _, _, _, hlen⟩ := put_existing_spec_lfu v hInv.1 hfind
    rw [hok'] at hok
    cases hok
    refine ⟨hwf', ?_⟩
    show ((c'.dict.length : Int)) ≤ max c'.capacity 0
    rw [hcap, hlen]
    exact hInv.2
  | none =>
    by_cases hover : (c.dict.length + 1 : Int) > c.capacity
    · by_cases hnil : c.dict = []
      · rw [put_error_of_empty_over v hInv.1 hfind hover hnil] at hok
        cases hok
      · obtain ⟨mf, k0, rest, c'', hm, hb, hstep, hwf', hcap, _, _, _, _, _, _, hlen⟩ :=
          put_fresh_evict_spec v hInv.1 hfind hover hnil
        rw [hstep] at hok
        cases hok
        refine ⟨hwf', ?_⟩
        show ((c'.dict.length : Int)) ≤ max c'.capacity 0
        rw [hcap, hlen]
        exact hInv.2
    · obtain ⟨c'', hok', hwf', hcap, _, _, _, _, _, hlen⟩ :=
        put_fresh_noevict_spec v hInv.1 hfind (by omega)
      rw [hok'] at hok
      cases hok
      refine ⟨hwf', ?_⟩
      show ((c'.dict.length : Int)) ≤ max c'.capacity 0
      rw [hcap, hlen]
      have hub : c.capacity ≤ max c.capacity 0 := le_max_left _ _
      push_cast
      omega

theorem reach_inv_lfu {c : LFUCache} (h : Reach c) : Inv c := by
  induction h with
  | init capacity => exact inv_init_lfu capacity
  | get c k r _ hok ih => exact inv_get_lfu ih hok
  | put c k v c' _ hok ih => exact inv_put_lfu ih hok

/-- For a well-formed state with `capacity ≥ 1`, `put` always completes. -/
theorem put_total {c : LFUCache} (hInv : Inv c) (hcap : 1 ≤ c.capacity)
    (k : Int) (v : Option Int) : ∃ c', c.put k v = .ok c' := by
  cases hfind : alistFind c.dict k with
  | some p =>
    obtain ⟨v0, u⟩ := p
    obtain ⟨c'', hok', _⟩ := put_existing_spec_lfu v hInv.1 hfind
    exact ⟨c'', hok'⟩
  | none =>
    by_cases hover : (c.dict.length + 1 : Int) > c.capacity
    · have hnil : c.dict ≠ [] := by
        intro hnil
        rw [hnil] at hover
        simp at hover
        omega
      obtain ⟨mf, k0, rest, c'', _, _, hstep, _⟩ :=
        put_fresh_evict_spec v hInv.1 hfind hover hnil
      exact ⟨c'', hstep⟩
    · obtain ⟨c'', hok', _⟩ := put_fresh_noevict_spec v hInv.1 hfind (by omega)
      exact ⟨c'', hok'⟩

/-- For a well-formed state, `get` always completes. -/
theorem get_total {c : LFUCache} (hwf : WF c) (k : Int) :
    ∃ r, c.get k = .ok r := by
  cases hfind : alistFind c.dict k with
  | none => exact ⟨(none, c), by simp [LFUCache.get, hfind]⟩
  | some p =>
    obtain ⟨v, u⟩ := p
    obtain ⟨c', hok', _⟩ := incUsage_spec hwf hfind
    exact ⟨(v, c'), by simp [LFUCache.get, hfind, hok', Except.map]⟩

end LFUCache

namespace LRUCache

/-- With `capacity ≥ 1`, every `put` on a well-formed state completes and
afterwards `key` is stored with the given value. -/
theorem put_total_find_lru {c : LRUCache} (hInv : Inv c) (hcap : 1 ≤ c.capacity)
    (k : Int) (v : Option Int) :
    ∃ c', c.put k v = .ok c' ∧ alistFind c'.dict k = some v := by
  cases hfind : alistFind c.dict k with
  | some w =>
    obtain ⟨c', hok, _, _, _, _, hfk, _, _⟩ := put_existing_spec_lru v hInv.1 hfind
    exact ⟨c', hok, hfk⟩
  | none =>
    by_cases hover : (c.dict.length + 1 : Int) > c.capacity
    · cases horder : c.order with
      | nil =>
        exfalso
        have hkeysnil : c.dict.map Prod.fst = [] :=
          List.Perm.eq_nil (horder ▸ hInv.1.1).symm
        have hlen0 : c.dict.length = 0 := by
          have := congrArg List.length hkeysnil
          simpa using this
        rw [hlen0] at hover
        omega
      | cons drop os =>
        rw [put_fresh_evict v hfind hover horder]
        refine ⟨_, rfl, ?_⟩
        have hdropkeys : drop ∈ c.dict.map Prod.fst :=
          hInv.1.1.mem_iff.1 (horder ▸ List.mem_cons_self drop os)
        have hdropne : drop ≠ k :=
          fun h => (alistFind_eq_none.1 hfind) (h ▸ hdropkeys)
        show alistFind (alistErase (c.dict ++ [(k, v)]) drop) k = some v
        rw [alistFind_alistErase_ne (Ne.symm hdropne)]
        exact alistFind_append_one_self hfind
    · rw [put_fresh_noevict v hfind (by omega)]
      exact ⟨_, rfl, alistFind_append_one_self hfind⟩

end LRUCache

namespace LFUCache

/-- With `capacity ≥ 1`, every `put` on a well-formed state completes, keeps
well-formedness, and afterwards `key` is stored with the given value (at some
usage count). -/
theorem put_total_find_lfu {c : LFUCache} (hInv : Inv c) (hcap : 1 ≤ c.capacity)
    (k : Int) (v : Option Int) :
    ∃ c' u1, c.put k v = .ok c' ∧ WF c' ∧ alistFind c'.dict k = some (v, u1) := by
  cases hfind : alistFind c.dict k with
  | some p =>
    obtain ⟨v0, u⟩ := p
    obtain ⟨c', hok, hwf', _, hfk, _⟩ := put_existing_spec_lfu v hInv.1 hfind
    exact ⟨c', u + 1, hok, hwf', hfk⟩
  | none =>
    by_cases hover : (c.dict.length + 1 : Int) > c.capacity
    · have hne : c.dict ≠ [] := by
        intro hnil
        rw [hnil] at hover
        simp at hover
        omega
      obtain ⟨mf, k0, rest, c', _, _, hstep, hwf', _, _, _, hfk, _⟩ :=
        put_fresh_evict_spec v hInv.1 hfind hover hne
      exact ⟨c', 1, hstep, hwf', hfk⟩
    · obtain ⟨c', hok, hwf', _, _, _, _, hfk, _⟩ :=
        put_fresh_noevict_spec v hInv.1 hfind (by omega)
      exact ⟨c', 1, hok, hwf', hfk⟩

end LFUCache

/-! ## Claims -/

/-- C1: the spec demands that constructing an engine with `capacity < 1` be
rejected at construction time.  The code does not do this: both constructors
accept any capacity and return an instance, and the very first insertion on a
`capacity < 1` instance raises from inside the eviction code (`AttributeError`
on `None.prev_` for LRU, `KeyError` on the `freq_dict[None]` bucket for LFU)
instead of failing at construction. -/
theorem C1_construction_not_validated :
    LRUCache.init 0 = { capacity := 0, dict := [], order := [] } ∧
    LFUCache.init 0 = { capacity := 0, dict := [], freq_dict := [], min_freq := none } ∧
    (LRUCache.init 0).put 1 (some 10) =
      .error "AttributeError: NoneType object has no attribute prev_" ∧
    (LFUCache.init 0).put 1 (some 10) =
      .error "KeyError: deleting from the empty freq_dict[None] bucket" ∧
    (LRUCache.init (-3)).put 5 (some 7) =
      .error "AttributeError: NoneType object has no attribute prev_" ∧
    (LFUCache.init (-3)).put 5 (some 7) =
      .error "KeyError: deleting from the empty freq_dict[None] bucket" := by
  decide

/-- C2: for both engines with `capacity ≥ 1`, in every state reachable by a
finite sequence of `get`/`put` calls from a fresh instance, the number of
stored keys (`len()`) is at most the capacity. -/
theorem C2_size_le_capacity :
    (∀ c : LRUCache, LRUCache.Reach c → 1 ≤ c.capacity →
      (c.dict.length : Int) ≤ c.capacity) ∧
    (∀ c : LFUCache, LFUCache.Reach c → 1 ≤ c.capacity →
      (c.dict.length : Int) ≤ c.capacity) := by
  constructor
  · intro c h hcap
    have h2 := (LRUCache.reach_inv_lru h).2
    rw [max_eq_left (by omega : (0 : Int) ≤ c.capacity)] at h2
    exact h2
  · intro c h hcap
    have h2 := (LFUCache.reach_inv_lfu h).2
    rw [max_eq_left (by omega : (0 : Int) ≤ c.capacity)] at h2
    exact h2

theorem C2_size_le_capacity_witness :
    ((({ capacity := 2, dict := [(1, some 10)], order := [1] } : LRUCache).dict.length : Int)
      ≤ ({ capacity := 2, dict := [(1, some 10)], order := [1] } : LRUCache).capacity) ∧
    ((({ capacity := 2, dict := [(1, (some 10, 1))], freq_dict := [(1, [1])],
         min_freq := some 1 } : LFUCache).dict.length : Int)
      ≤ ({ capacity := 2, dict := [(1, (some 10, 1))], freq_dict := [(1, [1])],
           min_freq := some 1 } : LFUCache).capacity) :=
  ⟨C2_size_le_capacity.1 _
      (LRUCache.Reach.put _ 1 (some 10) _ (LRUCache.Reach.init 2) (by decide)) (by decide),
   C2_size_le_capacity.2 _
      (LFUCache.Reach.put _ 1 (some 10) _ (LFUCache.Reach.init 2) (by decide)) (by decide)⟩

/-- C6: in every reachable LRU state, the keys held by the ordering list
(walking head to tail) are a permutation of the keys of the index dictionary
(hence equal as multisets and as sets), and the list length equals the index
size; `get`/`put` preserve this because every reachable state satisfies it. -/
theorem C6_lru_list_matches_dict :
    ∀ c : LRUCache, LRUCache.Reach c →
      c.order.Perm (c.dict.map Prod.fst) ∧ c.order.length = c.dict.length := by
  intro c hr
  have hwf := (LRUCache.reach_inv_lru hr).1
  refine ⟨hwf.1, ?_⟩
  have := hwf.1.length_eq
  simpa using this

theorem C6_lru_list_matches_dict_witness :
    (({ capacity := 2, dict := [(1, some 10)], order := [1] } : LRUCache).order.Perm
      (({ capacity := 2, dict := [(1, some 10)], order := [1] } : LRUCache).dict.map Prod.fst)) ∧
    ({ capacity := 2, dict := [(1, some 10)], order := [1] } : LRUCache).order.length
      = ({ capacity := 2, dict := [(1, some 10)], order := [1] } : LRUCache).dict.length :=
  C6_lru_list_matches_dict _
    (LRUCache.Reach.put _ 1 (some 10) _ (LRUCache.Reach.init 2) (by decide))

/-- C8: for both engines, `get` on an absent key returns `None`, raises
nothing, and returns the state completely unchanged (same dict, same
ordering structure, same `min_freq`). -/
theorem C8_get_miss_no_side_effect :
    (∀ (c : LRUCache) (k : Int), alistFind c.dict k = none → c.get k = (none, c)) ∧
    (∀ (c : LFUCache) (k : Int), alistFind c.dict k = none → c.get k = .ok (none, c)) := by
  constructor
  · intro c k h
    simp [LRUCache.get, h]
  · intro c k h
    simp [LFUCache.get, h]

theorem C8_get_miss_no_side_effect_witness :
    ({ capacity := 2, dict := [(1, some 10)], order := [1] } : LRUCache).get 99
      = (none, { capacity := 2, dict := [(1, some 10)], order := [1] }) ∧
    ({ capacity := 2, dict := [(1, (some 10, 1))], freq_dict := [(1, [1])],
       min_freq := some 1 } : LFUCache).get 99
      = .ok (none, { capacity := 2, dict := [(1, (some 10, 1))], freq_dict := [(1, [1])],
                     min_freq := some 1 }) :=
  ⟨C8_get_miss_no_side_effect.1 _ 99 (by decide),
   C8_get_miss_no_side_effect.2 _ 99 (by decide)⟩

/-- C3: for a reachable LFU state at full capacity, `put` of an absent key
evicts exactly the front key of the pre-existing `min_freq` bucket, then
stores the new key with usage count 1 in the count-1 bucket and sets
`min_freq = 1`; and the §8 scenario (capacity 2: put 1, put 2, get 1, put 3)
ends with key set `{1, 3}`, key 1 at usage count 2 and key 3 at count 1. -/
theorem C3_lfu_eviction_policy :
    (∀ (c : LFUCache) (k : Int) (v : Option Int),
      LFUCache.Reach c → 1 ≤ c.capacity → (c.dict.length : Int) = c.capacity →
      alistFind c.dict k = none →
      ∃ mf k0 rest c', c.min_freq = some mf ∧ c.bucket mf = k0 :: rest ∧
        c.put k v = .ok c' ∧
        alistFind c'.dict k0 = none ∧
        alistFind c'.dict k = some (v, 1) ∧
        (∀ k', k' ≠ k0 → k' ≠ k → alistFind c'.dict k' = alistFind c.dict k') ∧
        k ∈ c'.bucket 1 ∧ c'.min_freq = some 1) ∧
    (((LFUCache.init 2).put 1 (some 10)).bind
        (fun a => (a.put 2 (some 20)).bind
          (fun b => (b.get 1).bind
            (fun g => (g.2.put 3 (some 30)).map (fun d => (g.1, d)))))
      = Except.ok (some 10,
          { capacity := 2, dict := [(1, (some 10, 2)), (3, (some 30, 1))],
            freq_dict := [(1, [3]), (2, [1])], min_freq := some 1 })) := by
  constructor
  · intro c k v hr hcap hsize hfind
    have hInv := LFUCache.reach_inv_lfu hr
    have hover : (c.dict.length + 1 : Int) > c.capacity := by omega
    have hne : c.dict ≠ [] := by
      intro h
      rw [h] at hsize
      simp at hsize
      omega
    obtain ⟨mf, k0, rest, c', hm, hb, hstep, _, _, hminf, _, hfk, hfk0, hfo, hkb, _⟩ :=
      LFUCache.put_fresh_evict_spec v hInv.1 hfind hover hne
    exact ⟨mf, k0, rest, c', hm, hb, hstep, hfk0, hfk,
      fun k' h0 hk => hfo k' hk h0, hkb, hminf⟩
  · decide

theorem C3_lfu_eviction_policy_witness :
    ∃ mf k0 rest c',
      ({ capacity := 1, dict := [(1, (some 10, 1))], freq_dict := [(1, [1])],
         min_freq := some 1 } : LFUCache).min_freq = some mf ∧
      ({ capacity := 1, dict := [(1, (some 10, 1))], freq_dict := [(1, [1])],
         min_freq := some 1 } : LFUCache).bucket mf = k0 :: rest ∧
      ({ capacity := 1, dict := [(1, (some 10, 1))], freq_dict := [(1, [1])],
         min_freq := some 1 } : LFUCache).put 2 (some 20) = .ok c' ∧
      alistFind c'.dict k0 = none ∧
      alistFind c'.dict 2 = some (some 20, 1) ∧
      (∀ k', k' ≠ k0 → k' ≠ 2 →
        alistFind c'.dict k'
          = alistFind ({ capacity := 1, dict := [(1, (some 10, 1))],
                         freq_dict := [(1, [1])], min_freq := some 1 } : LFUCache).dict k') ∧
      (2 : Int) ∈ c'.bucket 1 ∧ c'.min_freq = some 1 :=
  C3_lfu_eviction_policy.1 _ 2 (some 20)
    (LFUCache.Reach.put _ 1 (some 10) _ (LFUCache.Reach.init 1) (by decide))
    (by decide) (by decide) (by decide)

/-- C4: in every reachable LFU state with `capacity ≥ 1`, `min_freq` is
`None` exactly when the cache is empty (for `capacity ≥ 1` eviction never
empties it, so "empty" is "has never held a key"); otherwise `min_freq` is
the smallest usage count with a non-empty bucket.  Moreover, when an
increment empties the bucket at the minimum, `min_freq` advances from `f`
to `f + 1`. -/
theorem C4_min_freq_invariant :
    (∀ c : LFUCache, LFUCache.Reach c → 1 ≤ c.capacity →
      ((c.min_freq = none ↔ c.dict = []) ∧
       (∀ m, c.min_freq = some m → c.bucket m ≠ [] ∧ ∀ u, c.bucket u ≠ [] → m ≤ u))) ∧
    (∀ (c : LFUCache) (k : Int) (v : Option Int) (f : Nat),
      LFUCache.Reach c → alistFind c.dict k = some (v, f) → c.min_freq = some f →
      c.bucket f = [k] →
      ∃ c', c.get k = .ok (v, c') ∧ c'.min_freq = some (f + 1)) := by
  constructor
  · intro c hr _
    have hwf := (LFUCache.reach_inv_lfu hr).1
    exact ⟨hwf.minNone, hwf.minSpec⟩
  · intro c k v f hr hfind hminf hbsingle
    obtain ⟨c', hok, _, _, _, _, _, _, hadv⟩ :=
      LFUCache.incUsage_spec (LFUCache.reach_inv_lfu hr).1 hfind
    refine ⟨c', ?_, hadv hbsingle hminf⟩
    simp [LFUCache.get, hfind, hok, Except.map]

theorem C4_min_freq_invariant_witness :
    ((({ capacity := 2, dict := [(1, (some 10, 1))], freq_dict := [(1, [1])],
         min_freq := some 1 } : LFUCache).min_freq = none
        ↔ ({ capacity := 2, dict := [(1, (some 10, 1))], freq_dict := [(1, [1])],
             min_freq := some 1 } : LFUCache).dict = []) ∧
     (∀ m, ({ capacity := 2, dict := [(1, (some 10, 1))], freq_dict := [(1, [1])],
              min_freq := some 1 } : LFUCache).min_freq = some m →
        ({ capacity := 2, dict := [(1, (some 10, 1))], freq_dict := [(1, [1])],
           min_freq := some 1 } : LFUCache).bucket m ≠ [] ∧
        ∀ u, ({ capacity := 2, dict := [(1, (some 10, 1))], freq_dict := [(1, [1])],
                min_freq := some 1 } : LFUCache).bucket u ≠ [] → m ≤ u)) ∧
    (∃ c', ({ capacity := 2, dict := [(1, (some 10, 1))], freq_dict := [(1, [1])],
              min_freq := some 1 } : LFUCache).get 1 = .ok (some 10, c') ∧
       c'.min_freq = some 2) :=
  ⟨C4_min_freq_invariant.1 _
      (LFUCache.Reach.put _ 1 (some 10) _ (LFUCache.Reach.init 2) (by decide)) (by decide),
   C4_min_freq_invariant.2 _ 1 (some 10) 1
      (LFUCache.Reach.put _ 1 (some 10) _ (LFUCache.Reach.init 2) (by decide))
      (by decide) (by decide) (by decide)⟩

/-- C5: in every reachable LRU state, `get` on a present key returns its
stored value, moves the key's node to the tail of the ordering list (making
it the most-recently-used and hence the last of the current keys to be
evicted), and changes neither the key multiset of the list nor the dict; and
the §8 scenario (capacity 3: put 1, put 2, put 3, get 1, put 4) evicts key 2
leaving key set `{1, 3, 4}`. -/
theorem C5_lru_get_recency :
    (∀ (c : LRUCache) (k : Int) (v : Option Int),
      LRUCache.Reach c → alistFind c.dict k = some v →
      (c.get k).1 = v ∧
      ((c.get k).2).order.getLast? = some k ∧
      ((c.get k).2).order.Perm c.order ∧
      ((c.get k).2).dict = c.dict) ∧
    (((LRUCache.init 3).put 1 (some 10)).bind
        (fun a => (a.put 2 (some 20)).bind
          (fun b => (b.put 3 (some 30)).bind
            (fun s => ((s.get 1).2.put 4 (some 40)).map
              (fun d => ((s.get 1).1, d)))))
      = Except.ok (some 10,
          { capacity := 3, dict := [(1, some 10), (3, some 30), (4, some 40)],
            order := [3, 1, 4] })) := by
  constructor
  · intro c k v hr hfind
    have hwf := (LRUCache.reach_inv_lru hr).1
    have hmem := hwf.mem_order_of_find hfind
    refine ⟨?_, ?_, ?_, ?_⟩
    · simp [LRUCache.get, hfind]
    · simp only [LRUCache.get, hfind]
      exact LRUCache.updateUsage_getLast c k
    · simp only [LRUCache.get, hfind]
      exact LRUCache.updateUsage_perm c k hmem
    · simp only [LRUCache.get, hfind]
      exact LRUCache.updateUsage_dict c k
  · decide

theorem C5_lru_get_recency_witness :
    (({ capacity := 2, dict := [(1, some 10)], order := [1] } : LRUCache).get 1).1 = some 10 ∧
    ((({ capacity := 2, dict := [(1, some 10)], order := [1] } : LRUCache).get 1).2).order.getLast?
      = some 1 ∧
    ((({ capacity := 2, dict := [(1, some 10)], order := [1] } : LRUCache).get 1).2).order.Perm
      ({ capacity := 2, dict := [(1, some 10)], order := [1] } : LRUCache).order ∧
    ((({ capacity := 2, dict := [(1, some 10)], order := [1] } : LRUCache).get 1).2).dict
      = ({ capacity := 2, dict := [(1, some 10)], order := [1] } : LRUCache).dict :=
  C5_lru_get_recency.1 _ 1 (some 10)
    (LRUCache.Reach.put _ 1 (some 10) _ (LRUCache.Reach.init 2) (by decide)) (by decide)

/-- C7: for both engines with `capacity ≥ 1`, in every reachable state,
`put k v` completes and an immediately following `get k` returns `v`. -/
theorem C7_put_then_get_roundtrip :
    (∀ (c : LRUCache) (k : Int) (v : Option Int),
      LRUCache.Reach c → 1 ≤ c.capacity →
      ∃ c', c.put k v = .ok c' ∧ (c'.get k).1 = v) ∧
    (∀ (c : LFUCache) (k : Int) (v : Option Int),
      LFUCache.Reach c → 1 ≤ c.capacity →
      ∃ c' c'', c.put k v = .ok c' ∧ c'.get k = .ok (v, c'')) := by
  constructor
  · intro c k v hr hcap
    obtain ⟨c', hok, hfk⟩ := LRUCache.put_total_find_lru (LRUCache.reach_inv_lru hr) hcap k v
    exact ⟨c', hok, by simp [LRUCache.get, hfk]⟩
  · intro c k v hr hcap
    obtain ⟨c', u1, hok, hwf', hfk⟩ := LFUCache.put_total_find_lfu (LFUCache.reach_inv_lfu hr) hcap k v
    obtain ⟨c'', hok', _⟩ := LFUCache.incUsage_spec hwf' hfk
    exact ⟨c', c'', hok, by simp [LFUCache.get, hfk, hok', Except.map]⟩

theorem C7_put_then_get_roundtrip_witness :
    (∃ c', ({ capacity := 2, dict := [(1, some 10)], order := [1] } : LRUCache).put 5 (some 50)
        = .ok c' ∧ (c'.get 5).1 = some 50) ∧
    (∃ c' c'', ({ capacity := 2, dict := [(1, (some 10, 1))], freq_dict := [(1, [1])],
                  min_freq := some 1 } : LFUCache).put 5 (some 50) = .ok c' ∧
       c'.get 5 = .ok (some 50, c'')) :=
  ⟨C7_put_then_get_roundtrip.1 _ 5 (some 50)
      (LRUCache.Reach.put _ 1 (some 10) _ (LRUCache.Reach.init 2) (by decide)) (by decide),
   C7_put_then_get_roundtrip.2 _ 5 (some 50)
      (LFUCache.Reach.put _ 1 (some 10) _ (LFUCache.Reach.init 2) (by decide)) (by decide)⟩

/-- C9: for both engines, `put` on a key already present never changes the
key count, removes no key (the key multiset of the dict is untouched), and
only the stored value and the key's ordering metadata change: every other
key's entry is exactly as before (and for LRU the ordering list keeps the
same key multiset, for LFU the key's usage count goes from `u` to `u+1`). -/
theorem C9_put_existing_frame :
    (∀ (c : LRUCache) (k : Int) (v0 v : Option Int),
      LRUCache.Reach c → alistFind c.dict k = some v0 →
      ∃ c', c.put k v = .ok c' ∧
        c'.dict.length = c.dict.length ∧
        c'.dict.map Prod.fst = c.dict.map Prod.fst ∧
        alistFind c'.dict k = some v ∧
        (∀ k', k' ≠ k → alistFind c'.dict k' = alistFind c.dict k') ∧
        c'.order.Perm c.order) ∧
    (∀ (c : LFUCache) (k : Int) (v0 v : Option Int) (u : Nat),
      LFUCache.Reach c → alistFind c.dict k = some (v0, u) →
      ∃ c', c.put k v = .ok c' ∧
        c'.dict.length = c.dict.length ∧
        c'.dict.map Prod.fst = c.dict.map Prod.fst ∧
        alistFind c'.dict k = some (v, u + 1) ∧
        (∀ k', k' ≠ k → alistFind c'.dict k' = alistFind c.dict k')) := by
  constructor
  · intro c k v0 v hr hfind
    have hwf := (LRUCache.reach_inv_lru hr).1
    obtain ⟨c', hok, _, _, hlen, hkeys, hfk, hother, hperm⟩ :=
      LRUCache.put_existing_spec_lru v hwf hfind
    exact ⟨c', hok, hlen, hkeys, hfk, hother, hperm⟩
  · intro c k v0 v u hr hfind
    have hwf := (LFUCache.reach_inv_lfu hr).1
    obtain ⟨c', hok, _, _, hfk, hother, hkeys, hlen⟩ :=
      LFUCache.put_existing_spec_lfu v hwf hfind
    exact ⟨c', hok, hlen, hkeys, hfk, hother⟩

theorem C9_put_existing_frame_witness :
    (∃ c', ({ capacity := 2, dict := [(1, some 10)], order := [1] } : LRUCache).put 1 (some 99)
        = .ok c' ∧
      c'.dict.length = ({ capacity := 2, dict := [(1, some 10)], order := [1] } : LRUCache).dict.length ∧
      c'.dict.map Prod.fst
        = ({ capacity := 2, dict := [(1, some 10)], order := [1] } : LRUCache).dict.map Prod.fst ∧
      alistFind c'.dict 1 = some (some 99) ∧
      (∀ k', k' ≠ 1 → alistFind c'.dict k'
        = alistFind ({ capacity := 2, dict := [(1, some 10)], order := [1] } : LRUCache).dict k') ∧
      c'.order.Perm ({ capacity := 2, dict := [(1, some 10)], order := [1] } : LRUCache).order) ∧
    (∃ c', ({ capacity := 2, dict := [(1, (some 10, 1))], freq_dict := [(1, [1])],
              min_freq := some 1 } : LFUCache).put 1 (some 99) = .ok c' ∧
      c'.dict.length = ({ capacity := 2, dict := [(1, (some 10, 1))], freq_dict := [(1, [1])],
                          min_freq := some 1 } : LFUCache).dict.length ∧
      c'.dict.map Prod.fst
        = ({ capacity := 2, dict := [(1, (some 10, 1))], freq_dict := [(1, [1])],
             min_freq := some 1 } : LFUCache).dict.map Prod.fst ∧
      alistFind c'.dict 1 = some (some 99, 2) ∧
      (∀ k', k' ≠ 1 → alistFind c'.dict k'
        = alistFind ({ capacity := 2, dict := [(1, (some 10, 1))], freq_dict := [(1, [1])],
                       min_freq := some 1 } : LFUCache).dict k')) :=
  ⟨C9_put_existing_frame.1 _ 1 (some 10) (some 99)
      (LRUCache.Reach.put _ 1 (some 10) _ (LRUCache.Reach.init 2) (by decide)) (by decide),
   C9_put_existing_frame.2 _ 1 (some 10) (some 99) 1
      (LFUCache.Reach.put _ 1 (some 10) _ (LFUCache.Reach.init 2) (by decide)) (by decide)⟩

/-- C10: a key stored with the Python value `None` is indistinguishable from
a miss through `get`'s return value — `get` returns `None` in both cases —
yet unlike a miss it still updates the ordering metadata: LRU moves the key
to the most-recently-used tail position, LFU increments its usage count. -/
theorem C10_none_value_ambiguity :
    (∀ (c : LRUCache) (k : Int), alistFind c.dict k = some none →
      (c.get k).1 = none ∧ ((c.get k).2).order.getLast? = some k) ∧
    (∀ (c : LRUCache) (k : Int), alistFind c.dict k = none →
      (c.get k).1 = none ∧ (c.get k).2 = c) ∧
    (∀ (c : LFUCache) (k : Int) (u : Nat), LFUCache.Reach c →
      alistFind c.dict k = some (none, u) →
      ∃ c', c.get k = .ok (none, c') ∧ alistFind c'.dict k = some (none, u + 1)) ∧
    (∀ (c : LFUCache) (k : Int), alistFind c.dict k = none → c.get k = .ok (none, c)) := by
  refine ⟨?_, ?_, ?_, ?_⟩
  · intro c k hfind
    constructor
    · simp [LRUCache.get, hfind]
    · simp only [LRUCache.get, hfind]
      exact LRUCache.updateUsage_getLast c k
  · intro c k hfind
    simp [LRUCache.get, hfind]
  · intro c k u hr hfind
    obtain ⟨c', hok, _, _, hfk, _⟩ :=
      LFUCache.incUsage_spec (LFUCache.reach_inv_lfu hr).1 hfind
    exact ⟨c', by simp [LFUCache.get, hfind, hok, Except.map], hfk⟩
  · intro c k hfind
    simp [LFUCache.get, hfind]

theorem C10_none_value_ambiguity_witness :
    ((({ capacity := 2, dict := [(1, none)], order := [1] } : LRUCache).get 1).1 = none ∧
      ((({ capacity := 2, dict := [(1, none)], order := [1] } : LRUCache).get 1).2).order.getLast?
        = some 1) ∧
    ((({ capacity := 2, dict := [(1, none)], order := [1] } : LRUCache).get 7).1 = none ∧
      (({ capacity := 2, dict := [(1, none)], order := [1] } : LRUCache).get 7).2
        = { capacity := 2, dict := [(1, none)], order := [1] }) ∧
    (∃ c', ({ capacity := 2, dict := [(1, (none, 1))], freq_dict := [(1, [1])],
              min_freq := some 1 } : LFUCache).get 1 = .ok (none, c') ∧
       alistFind c'.dict 1 = some (none, 2)) :=
  ⟨C10_none_value_ambiguity.1 _ 1 (by decide),
   C10_none_value_ambiguity.2.1 _ 7 (by decide),
   C10_none_value_ambiguity.2.2.1 _ 1 1
      (LFUCache.Reach.put _ 1 none _ (LFUCache.Reach.init 2) (by decide)) (by decide)⟩
